import Mathlib

/-!
Verification development for the persisted cooldown + shuffle-bag picker of
arr-search (src/app/main.py, class StateStore), together with its persistence
codec (_load / save).

Modelling conventions:
  * Python `dict`s (insertion ordered, key-indexed) are association lists
    `List (String × _)`; `aset` updates in place or appends, exactly as a
    Python dict assignment does.
  * `time.time()` is an explicit `now : Int` argument.
  * `random.shuffle` is an explicit family `sh : Nat → List Int → List Int`
    together with a counter in the state: the k-th shuffle performed by the
    store returns `sh k input`.  Theorems assume every `sh k` permutes its
    input; any concrete run of the Python code corresponds to some such `sh`.
  * Python `set(...)` of a list of ints is represented by its first-occurrence
    deduplication `uniq`; the arbitrary iteration order of a Python set is
    absorbed into the arbitrary shuffle that is always applied right after.
  * JSON documents are the inductive `JVal`; machine integers are `Int`
    (Python ints are unbounded, so no wrap-around is modelled).
-/

namespace ArrSearch

/-- First-occurrence deduplication, the `uniq` helper inside
`StateStore._load.norm_bucket` (seen-set loop). -/
def uniqAux (seen : List Int) : List Int → List Int
  | [] => []
  | x :: t => if x ∈ seen then uniqAux seen t else x :: uniqAux (x :: seen) t

def uniq (l : List Int) : List Int := uniqAux [] l

/-- Association-list lookup (Python `d.get(k)` / `k in d`). -/
def alookup {β : Type} : List (String × β) → String → Option β
  | [], _ => none
  | (k, v) :: t, k0 => if k0 = k then some v else alookup t k0

/-- Association-list update (Python `d[k] = v`): replaces in place if the key
is present, otherwise appends, as a Python dict does. -/
def aset {β : Type} : List (String × β) → String → β → List (String × β)
  | [], k, v => [(k, v)]
  | (k1, v1) :: t, k, v => if k = k1 then (k, v) :: t else (k1, v1) :: aset t k v

/-- One per-bucket cycle record: `shuffle[bucket] = {"bag": [...], "seen": [...]}`. -/
structure ShBucket where
  bag : List Int
  seen : List Int
deriving DecidableEq, Repr

/-- The in-memory `StateStore` fields: `cooldowns`, `shuffle`, plus the
position in the randomness stream (models the global RNG's advancing state). -/
structure SState where
  cooldowns : List (String × List (String × Int))
  shuffle : List (String × ShBucket)
  ctr : Nat
deriving DecidableEq, Repr

def emptySState : SState := ⟨[], [], 0⟩

/-- `cooldowns[bucket][str(id)]` as a total lookup. -/
def cdLookup (s : SState) (bucket : String) (i : Int) : Option Int :=
  (alookup s.cooldowns bucket).bind (fun m => alookup m (toString i))

def shLookup (s : SState) (bucket : String) : Option ShBucket :=
  alookup s.shuffle bucket

def bagOf (s : SState) (bucket : String) : List Int :=
  ((shLookup s bucket).getD ⟨[], []⟩).bag

def seenOf (s : SState) (bucket : String) : List Int :=
  ((shLookup s bucket).getD ⟨[], []⟩).seen

/-- `StateStore.is_cooled_down`.  Note that `_cd_bucket` inserts an empty
per-bucket dict when the bucket is absent, so the query can mutate
`cooldowns`; the result is returned together with the possibly-extended
state. -/
def is_cooled_down (s : SState) (bucket : String) (item_id : Int) (cooldown_seconds now : Int) :
    Bool × SState :=
  if cooldown_seconds ≤ 0 then (true, s)
  else
    let s1 := if (alookup s.cooldowns bucket).isSome then s
      else { s with cooldowns := aset s.cooldowns bucket [] }
    let res := match alookup ((alookup s1.cooldowns bucket).getD []) (toString item_id) with
      | none => true
      | some last => decide (now - last ≥ cooldown_seconds)
    (res, s1)

/-- `StateStore.mark_searched`: `self._cd_bucket(bucket)[str(item_id)] = now_epoch()`. -/
def mark_searched (s : SState) (bucket : String) (item_id : Int) (now : Int) : SState :=
  let m := (alookup s.cooldowns bucket).getD []
  { s with cooldowns := aset s.cooldowns bucket (aset m (toString item_id) now) }

/-- `StateStore._sh_bucket`: returns the per-bucket cycle record, creating the
default `{"bag": [], "seen": []}` when absent.  (The `isinstance` repairs in
the source are identities here because the state is well-typed.) -/
def sh_bucket (s : SState) (bucket : String) : ShBucket × SState :=
  match alookup s.shuffle bucket with
  | some b => (b, s)
  | none => (⟨[], []⟩, { s with shuffle := aset s.shuffle bucket ⟨[], []⟩ })

/-- Overwrite `b["bag"]` of an existing bucket (keeps `seen`). -/
def setBag (s : SState) (bucket : String) (bag : List Int) : SState :=
  { s with shuffle := aset s.shuffle bucket ⟨bag, seenOf s bucket⟩ }

/-- `b["seen"].append(c)`. -/
def pushSeen (s : SState) (bucket : String) (c : Int) : SState :=
  { s with shuffle := aset s.shuffle bucket ⟨bagOf s bucket, seenOf s bucket ++ [c]⟩ }

/-- `StateStore._refresh_bucket`: intersect `bag`/`seen` with the eligible
set, append the shuffled newly-eligible ids, and start a new cycle (shuffled
full eligible set, empty `seen`) when the bag has emptied. -/
def refresh_bucket (sh : Nat → List Int → List Int) (s : SState) (bucket : String)
    (eligible_ids : List Int) : SState :=
  let eligSet := uniq eligible_ids
  let p := sh_bucket s bucket
  let s1 := p.2
  let bag0 := p.1.bag.filter (fun x => decide (x ∈ eligSet))
  let seen0 := p.1.seen.filter (fun x => decide (x ∈ eligSet))
  let newIds := sh s1.ctr (eligSet.filter (fun x => decide (x ∉ bag0) && decide (x ∉ seen0)))
  let s2 : SState := { s1 with ctr := s1.ctr + 1 }
  let bag1 := bag0 ++ newIds
  if bag1.isEmpty then
    { s2 with ctr := s2.ctr + 1, shuffle := aset s2.shuffle bucket ⟨sh s2.ctr eligSet, []⟩ }
  else
    { s2 with shuffle := aset s2.shuffle bucket ⟨bag1, seen0⟩ }

/-- The inner `while attempts < max_attempts and b["bag"]` loop of
`draw_no_repeat`: examine the bag head; if cooled down select it, otherwise
rotate it to the tail; give up after `fuel = len(bag)` rotations. -/
def scanLoop (bucket : String) (cds now : Int) : Nat → SState → Option Int × SState
  | 0, s => (none, s)
  | fuel + 1, s =>
    match bagOf s bucket with
    | [] => (none, s)
    | candidate :: rest =>
      let r := is_cooled_down s bucket candidate cds now
      if r.1 then (some candidate, r.2)
      else scanLoop bucket cds now fuel (setBag r.2 bucket (rest ++ [candidate]))

/-- The outer `for _ in range(count)` loop of `draw_no_repeat`. -/
def draw_go (sh : Nat → List Int → List Int) (bucket : String) (elig : List Int)
    (cds now : Int) (mark : Bool) : Nat → SState → List Int → List Int × SState
  | 0, s, picked => (picked, s)
  | n + 1, s, picked =>
    let s1 := if (bagOf s bucket).isEmpty then refresh_bucket sh s bucket elig else s
    if (bagOf s1 bucket).isEmpty then (picked, s1)
    else
      match scanLoop bucket cds now (bagOf s1 bucket).length s1 with
      | (none, s2) => (picked, s2)
      | (some c, s2) =>
        let s3 := setBag s2 bucket (bagOf s2 bucket).tail
        let s4 := pushSeen s3 bucket c
        let s5 := if mark then mark_searched s4 bucket c now else s4
        draw_go sh bucket elig cds now mark n s5 (picked ++ [c])

/-- `StateStore.draw_no_repeat` on already-integer eligible ids (the
`[int(x) for x in eligible_ids]` conversion is the identity there; see
`draw_no_repeat_raw` for heterogeneous inputs). -/
def draw_no_repeat (sh : Nat → List Int → List Int) (s : SState) (bucket : String)
    (eligible_ids : List Int) (count cds now : Int) (mark : Bool) : List Int × SState :=
  if count ≤ 0 then ([], s)
  else if eligible_ids.isEmpty then ([], s)
  else
    let s1 := refresh_bucket sh s bucket eligible_ids
    let s2 := (sh_bucket s1 bucket).2
    draw_go sh bucket eligible_ids cds now mark count.toNat s2 []

/-- `n` consecutive `draw_no_repeat` calls with `count = 1`, concatenating the
returned picks (the scenario of the no-repeat property). -/
def drawSeq (sh : Nat → List Int → List Int) (bucket : String) (elig : List Int)
    (cds now : Int) (mark : Bool) : Nat → SState → List Int × SState
  | 0, s => ([], s)
  | n + 1, s =>
    let p := draw_no_repeat sh s bucket elig 1 cds now mark
    let q := drawSeq sh bucket elig cds now mark n p.2
    (p.1 ++ q.1, q.2)

/-- The documented state-mutating operations, for reachability statements. -/
inductive Op
  | reconcile (bucket : String) (elig : List Int)
  | draw (bucket : String) (elig : List Int) (count cds now : Int) (mark : Bool)
  | markSel (bucket : String) (i : Int) (now : Int)

def applyOp (sh : Nat → List Int → List Int) (s : SState) : Op → SState
  | .reconcile b e => refresh_bucket sh s b e
  | .draw b e c cds now m => (draw_no_repeat sh s b e c cds now m).2
  | .markSel b i now => mark_searched s b i now

def runOps (sh : Nat → List Int → List Int) : List Op → SState → SState
  | [], s => s
  | op :: t, s => runOps sh t (applyOp sh s op)

/-- Whether an operation actually reconciles bucket `b` against its eligible
list (a draw with non-positive count or empty eligible list returns before
touching the bucket). -/
def refreshesBucket (b : String) : Op → Bool
  | .reconcile b1 _ => b1 = b
  | .draw b1 e c _ _ _ => b1 = b && decide (0 < c) && !e.isEmpty
  | .markSel _ _ _ => false

def eligOf : Op → List Int
  | .reconcile _ e => e
  | .draw _ e _ _ _ _ => e
  | .markSel _ _ _ => []

/-- The eligible list of the last operation that reconciled bucket `b`. -/
def lastElig (b : String) : List Op → Option (List Int)
  | [] => none
  | op :: t =>
    match lastElig b t with
    | some e => some e
    | none => if refreshesBucket b op then some (eligOf op) else none

/-- The identity shuffle family, used for concrete executions. -/
def idSh : Nat → List Int → List Int := fun _ l => l

/-! ## Persistence codec: JSON values, `_load` and `save` -/

/-- JSON values as produced by `json.load` (floats are not modelled; none of
the persisted data contains them). -/
inductive JVal
  | jnull
  | jbool (b : Bool)
  | jnum (n : Int)
  | jstr (s : String)
  | jarr (xs : List JVal)
  | jobj (kvs : List (String × JVal))

def alookupJ : List (String × JVal) → String → Option JVal
  | [], _ => none
  | (k, v) :: t, k0 => if k0 = k then some v else alookupJ t k0

def asetJ : List (String × JVal) → String → JVal → List (String × JVal)
  | [], k, v => [(k, v)]
  | (k1, v1) :: t, k, v => if k = k1 then (k, v) :: t else (k1, v1) :: asetJ t k v

/-- Building a Python dict from a JSON object's key/value list: first
occurrence fixes the position, a later duplicate key overwrites the value. -/
def pyDict (kvs : List (String × JVal)) : List (String × JVal) :=
  kvs.foldl (fun acc kv => asetJ acc kv.1 kv.2) []

mutual
/-- `json.load` semantics on an already-parsed tree: every object becomes a
Python dict (duplicate keys collapsed, last value wins). -/
def canon : JVal → JVal
  | .jobj kvs => .jobj (pyDict (canonKVs kvs))
  | .jarr xs => .jarr (canonList xs)
  | .jnull => .jnull
  | .jbool b => .jbool b
  | .jnum n => .jnum n
  | .jstr s => .jstr s

def canonKVs : List (String × JVal) → List (String × JVal)
  | [] => []
  | (k, v) :: t => (k, canon v) :: canonKVs t

def canonList : List JVal → List JVal
  | [] => []
  | v :: t => canon v :: canonList t
end

/-- Python truthiness of a JSON-loaded value (`data or {}`). -/
def truthy : JVal → Bool
  | .jnull => false
  | .jbool b => b
  | .jnum n => !(n == 0)
  | .jstr s => !(s == "")
  | .jarr xs => !xs.isEmpty
  | .jobj kvs => !kvs.isEmpty

/-- `int(s)` on a Python string: optional surrounding whitespace, an optional
single sign, then a non-empty digit run; anything else raises `ValueError`. -/
def pyIntOfChars (cs : List Char) : Except Unit Int :=
  let cs := (((cs.dropWhile Char.isWhitespace).reverse).dropWhile Char.isWhitespace).reverse
  match cs with
  | '-' :: rest =>
    if rest.isEmpty || !rest.all Char.isDigit then .error ()
    else .ok (-(Int.ofNat (rest.foldl (fun a c => a * 10 + (c.toNat - 48)) 0)))
  | '+' :: rest =>
    if rest.isEmpty || !rest.all Char.isDigit then .error ()
    else .ok (Int.ofNat (rest.foldl (fun a c => a * 10 + (c.toNat - 48)) 0))
  | _ =>
    if cs.isEmpty || !cs.all Char.isDigit then .error ()
    else .ok (Int.ofNat (cs.foldl (fun a c => a * 10 + (c.toNat - 48)) 0))

/-- `int(x)` on a JSON-loaded value: identity on ints, `True`/`False` become
`1`/`0`, strings are parsed, everything else raises `TypeError`. -/
def pyInt : JVal → Except Unit Int
  | .jnum n => .ok n
  | .jbool b => .ok (if b then 1 else 0)
  | .jstr s => pyIntOfChars s.toList
  | _ => .error ()

/-- One bag/seen element in `norm_bucket`: the guard
`str(x).lstrip("-").isdigit()` followed by `int(x)`.
`none` means the element is filtered out, `some (.error ())` means the guard
passed but `int(x)` raised (for example the string consisting of two dashes
followed by digits), `some (.ok n)` is a kept element. -/
def bagEntryNum : JVal → Option (Except Unit Int)
  | .jnum n => some (.ok n)
    -- str of an int is an optional dash and digits: the guard always passes
    -- and int is the identity
  | .jstr s =>
    let cs := s.toList
    let dashes := cs.takeWhile (fun c => c == '-')
    let rest := cs.dropWhile (fun c => c == '-')
    if rest.isEmpty || !rest.all Char.isDigit then none
    else if dashes.length == 0 then some (.ok (Int.ofNat (rest.foldl (fun a c => a * 10 + (c.toNat - 48)) 0)))
    else if dashes.length == 1 then some (.ok (-(Int.ofNat (rest.foldl (fun a c => a * 10 + (c.toNat - 48)) 0))))
    else some (.error ())
  | .jbool _ => none    -- str gives the word True or False: guard fails
  | .jnull => none      -- str gives the word None: guard fails
  | .jarr _ => none     -- str starts with a bracket: guard fails
  | .jobj _ => none     -- str starts with a brace: guard fails

/-- The comprehension over one bag/seen list, left to right: filtered
elements are skipped, the first conversion error aborts the whole load. -/
def normList : List JVal → Except Unit (List Int)
  | [] => .ok []
  | x :: t =>
    match bagEntryNum x with
    | none => normList t
    | some (.error _) => .error ()
    | some (.ok n) => do
      let r ← normList t
      .ok (n :: r)

/-- Iterating `b.get("bag", [])` in the comprehension: lists yield their
elements, strings their one-character substrings, dicts their keys; numbers,
booleans and null are not iterable (`TypeError`). -/
def pyIterInts : JVal → Except Unit (List Int)
  | .jarr xs => normList xs
  | .jstr s => normList (s.toList.map (fun c => JVal.jstr (String.mk [c])))
  | .jobj kvs => normList (kvs.map (fun kv => JVal.jstr kv.1))
  | _ => .error ()

/-- `norm_bucket` of `_load`: non-dict values become the empty cycle record;
otherwise the bag and seen lists are normalized and deduplicated. -/
def normBucket : JVal → Except Unit ShBucket
  | .jobj kvs => do
    let bag ← pyIterInts ((alookupJ kvs "bag").getD (.jarr []))
    let seen ← pyIterInts ((alookupJ kvs "seen").getD (.jarr []))
    .ok ⟨uniq bag, uniq seen⟩
  | _ => .ok ⟨[], []⟩

def normCDInner : List (String × JVal) → Except Unit (List (String × Int))
  | [] => .ok []
  | (i, ts) :: t => do
    let n ← pyInt ts
    let r ← normCDInner t
    .ok ((i, n) :: r)

def normCDOuter : List (String × JVal) → Except Unit (List (String × List (String × Int)))
  | [] => .ok []
  | (b, v) :: t =>
    match v with
    | .jobj m => do
      let im ← normCDInner m
      let r ← normCDOuter t
      .ok ((b, im) :: r)
    | _ => normCDOuter t    -- non-dict bucket values are filtered out

/-- The cooldown normalization of `_load` (both the legacy comprehension and
the `str`/`int` normalization pass have this shape; the second pass is the
identity on the first pass's output).  A non-dict value yields the empty
mapping, matching `... if isinstance(..., dict) else []` and `or` with the
empty dict. -/
def normCD : JVal → Except Unit (List (String × List (String × Int)))
  | .jobj kvs => normCDOuter kvs
  | _ => .ok []

def normShAux : List (String × JVal) → Except Unit (List (String × ShBucket))
  | [] => .ok []
  | (b, v) :: t => do
    let sb ← normBucket v
    let r ← normShAux t
    .ok ((b, sb) :: r)

def normShuffleV : JVal → Except Unit (List (String × ShBucket))
  | .jobj kvs => normShAux kvs
  | _ => .ok []

def listStartsWith : List Char → List Char → Bool
  | [], _ => true
  | _ :: _, [] => false
  | p :: ps, c :: cs => p == c && listStartsWith ps cs

def listHasSub (pat : List Char) : List Char → Bool
  | [] => pat.isEmpty
  | c :: cs => listStartsWith pat (c :: cs) || listHasSub pat cs

def hasStrElem (xs : List JVal) (s : String) : Bool :=
  xs.any (fun v => match v with | .jstr t => t == s | _ => false)

/-- The body of `StateStore._load` on a successfully parsed document; an
`error` result is the exception path that the surrounding `try` turns into
the empty state plus a warning. -/
def loadContent (doc : JVal) : Except Unit SState :=
  let data := if truthy doc then doc else .jobj []
  match data with
  | .jobj kvs =>
    if (alookupJ kvs "cooldowns").isSome || (alookupJ kvs "shuffle").isSome then do
      let cds ← normCD ((alookupJ kvs "cooldowns").getD (.jobj []))
      let shf ← normShuffleV ((alookupJ kvs "shuffle").getD (.jobj []))
      .ok ⟨cds, shf, 0⟩
    else do
      -- legacy flat format: every dict-valued top-level entry is a cooldown
      -- bucket, shuffle stays empty
      let cds ← normCD (.jobj kvs)
      .ok ⟨cds, [], 0⟩
  | .jstr s =>
    -- the membership test is a substring test on strings; when it succeeds
    -- the subsequent attribute access raises
    if listHasSub "cooldowns".toList s.toList || listHasSub "shuffle".toList s.toList then
      .error ()
    else .ok ⟨[], [], 0⟩
  | .jarr xs =>
    -- list membership; when it succeeds the subsequent attribute access
    -- raises (equality with a string holds only for that very string)
    if hasStrElem xs "cooldowns" || hasStrElem xs "shuffle" then .error ()
    else .ok ⟨[], [], 0⟩
  | _ => .error ()    -- the membership test on a number or True raises TypeError

/-- The three ways the persisted file can present itself to `_load`. -/
inductive LoadInput
  | absent
  | unreadable
  | content (v : JVal)

/-- `StateStore._load` end to end: the returned flag records whether the
"Failed to load state" warning was logged.  An absent file is skipped
silently; an unreadable or unparseable file, or any exception while
normalizing a parsed document, falls back to the empty state with a
warning. -/
def loadState : LoadInput → SState × Bool
  | .absent => (emptySState, false)
  | .unreadable => (emptySState, true)
  | .content v =>
    match loadContent (canon v) with
    | .ok s => (s, false)
    | .error _ => (emptySState, true)

/-- `StateStore.save`: the document written to disk.  (`sort_keys=True` only
changes the textual order of keys in the emitted file, not the key-indexed
mapping that a subsequent load reconstructs.) -/
def saveJ (s : SState) : JVal :=
  .jobj
    [("cooldowns", .jobj (s.cooldowns.map (fun bm =>
        (bm.1, .jobj (bm.2.map (fun p => (p.1, JVal.jnum p.2))))))),
     ("shuffle", .jobj (s.shuffle.map (fun bs =>
        (bs.1, .jobj [("bag", .jarr (bs.2.bag.map JVal.jnum)),
                      ("seen", .jarr (bs.2.seen.map JVal.jnum))]))))]

def pyIntList : List JVal → Except Unit (List Int)
  | [] => .ok []
  | x :: t => do
    let n ← pyInt x
    let r ← pyIntList t
    .ok (n :: r)

/-- `draw_no_repeat` on raw (possibly non-integer) eligible ids: the
`count <= 0` check precedes the `[int(x) for x in eligible_ids]` conversion,
whose failure propagates as an uncaught exception. -/
def draw_no_repeat_raw (sh : Nat → List Int → List Int) (s : SState) (bucket : String)
    (eligible_raw : List JVal) (count cds now : Int) (mark : Bool) :
    Except Unit (List Int × SState) :=
  if count ≤ 0 then .ok ([], s)
  else do
    let elig ← pyIntList eligible_raw
    .ok (draw_no_repeat sh s bucket elig count cds now mark)

end ArrSearch

namespace ArrSearch

/-! ## Generic lemmas: association lists and deduplication -/

theorem alookup_aset_self {β : Type} (l : List (String × β)) (k : String) (v : β) :
    alookup (aset l k v) k = some v := by
  induction l with
  | nil => simp [aset, alookup]
  | cons h t ih =>
    obtain ⟨k1, v1⟩ := h
    by_cases hk : k = k1
    · simp [aset, hk, alookup]
    · simp [aset, hk, alookup, ih]

theorem alookup_aset_ne {β : Type} (l : List (String × β)) (k k0 : String) (v : β)
    (h : k0 ≠ k) : alookup (aset l k v) k0 = alookup l k0 := by
  induction l with
  | nil => simp [aset, alookup, h]
  | cons hd t ih =>
    obtain ⟨k1, v1⟩ := hd
    by_cases hk : k = k1
    · subst hk; simp [aset, alookup, h]
    · by_cases hk0 : k0 = k1 <;> simp [aset, hk, alookup, hk0, ih]

theorem aset_aset {β : Type} (l : List (String × β)) (k : String) (v0 v : β) :
    aset (aset l k v0) k v = aset l k v := by
  induction l with
  | nil => simp [aset]
  | cons hd t ih =>
    obtain ⟨k1, v1⟩ := hd
    by_cases hk : k = k1 <;> simp [aset, hk, ih]

theorem mem_keys_aset {β : Type} (l : List (String × β)) (k k0 : String) (v : β) :
    k0 ∈ (aset l k v).map Prod.fst ↔ k0 ∈ l.map Prod.fst ∨ k0 = k := by
  induction l with
  | nil => simp [aset]
  | cons hd t ih =>
    obtain ⟨k1, v1⟩ := hd
    by_cases hk : k = k1
    · subst hk; simp [aset]; tauto
    · simp [aset, hk, ih]; tauto

theorem nodup_keys_aset {β : Type} (l : List (String × β)) (k : String) (v : β)
    (h : (l.map Prod.fst).Nodup) : ((aset l k v).map Prod.fst).Nodup := by
  induction l with
  | nil => simp [aset]
  | cons hd t ih =>
    obtain ⟨k1, v1⟩ := hd
    simp only [List.map_cons, List.nodup_cons] at h
    by_cases hk : k = k1
    · subst hk; simpa [aset] using h
    · have hrec := ih h.2
      simp only [aset, if_neg hk, List.map_cons, List.nodup_cons]
      refine ⟨fun hmem => ?_, hrec⟩
      rcases (mem_keys_aset t k k1 v).mp hmem with h1 | h1
      · exact h.1 h1
      · exact hk h1.symm

theorem mem_aset {β : Type} (l : List (String × β)) (k : String) (v : β) (p : String × β)
    (h : p ∈ aset l k v) : p = (k, v) ∨ p ∈ l := by
  induction l with
  | nil => simpa [aset] using h
  | cons hd t ih =>
    obtain ⟨k1, v1⟩ := hd
    by_cases hk : k = k1
    · subst hk; rcases (by simpa [aset] using h : p = (k, v) ∨ p ∈ t) with h1 | h1
      · exact Or.inl h1
      · exact Or.inr (List.mem_cons_of_mem _ h1)
    · rcases (by simpa [aset, hk] using h : p = (k1, v1) ∨ p ∈ aset t k v) with h1 | h1
      · exact Or.inr (by simp [h1])
      · rcases ih h1 with h2 | h2
        · exact Or.inl h2
        · exact Or.inr (List.mem_cons_of_mem _ h2)

theorem mem_uniqAux (x : Int) (seen l : List Int) :
    x ∈ uniqAux seen l ↔ x ∈ l ∧ x ∉ seen := by
  induction l generalizing seen with
  | nil => simp [uniqAux]
  | cons y t ih =>
    by_cases hy : y ∈ seen
    · simp only [uniqAux, if_pos hy, ih, List.mem_cons]
      constructor
      · rintro ⟨h1, h2⟩; exact ⟨Or.inr h1, h2⟩
      · rintro ⟨h1 | h1, h2⟩
        · exact absurd (h1 ▸ hy) h2
        · exact ⟨h1, h2⟩
    · simp only [uniqAux, if_neg hy, List.mem_cons, ih]
      by_cases hxy : x = y
      · subst hxy; simp [hy]
      · simp [hxy]

theorem uniqAux_sublist (seen l : List Int) : (uniqAux seen l).Sublist l := by
  induction l generalizing seen with
  | nil => simp [uniqAux]
  | cons y t ih =>
    by_cases hy : y ∈ seen
    · simpa [uniqAux, hy] using (ih seen).cons y
    · simpa [uniqAux, hy] using (ih (y :: seen)).cons₂ y

theorem nodup_uniqAux (seen l : List Int) : (uniqAux seen l).Nodup := by
  induction l generalizing seen with
  | nil => simp [uniqAux]
  | cons y t ih =>
    by_cases hy : y ∈ seen
    · simpa [uniqAux, hy] using ih seen
    · simp only [uniqAux, if_neg hy, List.nodup_cons]
      exact ⟨fun hmem => ((mem_uniqAux y (y :: seen) t).mp hmem).2 (by simp), ih (y :: seen)⟩

theorem uniqAux_eq_self (seen l : List Int) :
    l.Nodup → (∀ x ∈ l, x ∉ seen) → uniqAux seen l = l := by
  induction l generalizing seen with
  | nil => intro _ _; simp [uniqAux]
  | cons y t ih =>
    intro hl hs
    simp only [List.nodup_cons] at hl
    have hy : y ∉ seen := hs y (by simp)
    simp only [uniqAux, if_neg hy]
    congr 1
    refine ih (y :: seen) hl.2 (fun x hx hmem => ?_)
    rcases List.mem_cons.mp hmem with rfl | hmem2
    · exact hl.1 hx
    · exact hs x (List.mem_cons_of_mem y hx) hmem2

theorem mem_uniq (x : Int) (l : List Int) : x ∈ uniq l ↔ x ∈ l := by
  simp [uniq, mem_uniqAux]

theorem nodup_uniq (l : List Int) : (uniq l).Nodup := nodup_uniqAux [] l

theorem uniq_sublist (l : List Int) : (uniq l).Sublist l := uniqAux_sublist [] l

theorem uniq_eq_self (l : List Int) (hl : l.Nodup) : uniq l = l :=
  uniqAux_eq_self [] l hl (by simp)

theorem uniq_ne_nil (l : List Int) (h : l ≠ []) : uniq l ≠ [] := by
  cases l with
  | nil => exact absurd rfl h
  | cons y t =>
    intro hcon
    have : y ∈ uniq (y :: t) := (mem_uniq y (y :: t)).mpr (by simp)
    simp [hcon] at this

end ArrSearch

namespace ArrSearch

/-! ## Closed forms of the state operations -/

/-- Closed form of `_refresh_bucket` in terms of the current bag/seen view. -/
theorem refresh_eq (sh : Nat → List Int → List Int) (s : SState) (b : String)
    (e : List Int) :
    refresh_bucket sh s b e =
      (let E := uniq e
       let bag0 := (bagOf s b).filter (fun x => decide (x ∈ E))
       let seen0 := (seenOf s b).filter (fun x => decide (x ∈ E))
       let new := sh s.ctr (E.filter (fun x => decide (x ∉ bag0) && decide (x ∉ seen0)))
       if (bag0 ++ new).isEmpty then
         { s with ctr := s.ctr + 2, shuffle := aset s.shuffle b ⟨sh (s.ctr + 1) E, []⟩ }
       else
         { s with ctr := s.ctr + 1, shuffle := aset s.shuffle b ⟨bag0 ++ new, seen0⟩ }) := by
  show refresh_bucket sh s b e = _
  unfold refresh_bucket sh_bucket
  cases hl : alookup s.shuffle b with
  | some bb =>
    simp only [bagOf, seenOf, shLookup, hl, Option.getD_some]
  | none =>
    simp only [bagOf, seenOf, shLookup, hl, Option.getD_none, List.filter_nil,
      List.nil_append, aset_aset]

end ArrSearch

namespace ArrSearch

/-! ## Projection lemmas for the state operations -/

theorem setBag_cooldowns (s : SState) (b : String) (bag : List Int) :
    (setBag s b bag).cooldowns = s.cooldowns := rfl

theorem setBag_ctr (s : SState) (b : String) (bag : List Int) :
    (setBag s b bag).ctr = s.ctr := rfl

theorem bagOf_setBag_self (s : SState) (b : String) (bag : List Int) :
    bagOf (setBag s b bag) b = bag := by
  simp [bagOf, setBag, shLookup, alookup_aset_self]

theorem seenOf_setBag_self (s : SState) (b : String) (bag : List Int) :
    seenOf (setBag s b bag) b = seenOf s b := by
  simp [seenOf, setBag, shLookup, alookup_aset_self]

theorem shLookup_setBag_ne (s : SState) (b b0 : String) (bag : List Int) (h : b0 ≠ b) :
    shLookup (setBag s b bag) b0 = shLookup s b0 := by
  simp [setBag, shLookup, alookup_aset_ne _ _ _ _ h]

theorem pushSeen_cooldowns (s : SState) (b : String) (c : Int) :
    (pushSeen s b c).cooldowns = s.cooldowns := rfl

theorem pushSeen_ctr (s : SState) (b : String) (c : Int) :
    (pushSeen s b c).ctr = s.ctr := rfl

theorem bagOf_pushSeen_self (s : SState) (b : String) (c : Int) :
    bagOf (pushSeen s b c) b = bagOf s b := by
  simp [bagOf, pushSeen, shLookup, alookup_aset_self]

theorem seenOf_pushSeen_self (s : SState) (b : String) (c : Int) :
    seenOf (pushSeen s b c) b = seenOf s b ++ [c] := by
  simp [seenOf, pushSeen, shLookup, alookup_aset_self]

theorem shLookup_pushSeen_ne (s : SState) (b b0 : String) (c : Int) (h : b0 ≠ b) :
    shLookup (pushSeen s b c) b0 = shLookup s b0 := by
  simp [pushSeen, shLookup, alookup_aset_ne _ _ _ _ h]

theorem mark_shuffle (s : SState) (b : String) (i now : Int) :
    (mark_searched s b i now).shuffle = s.shuffle := rfl

theorem mark_ctr (s : SState) (b : String) (i now : Int) :
    (mark_searched s b i now).ctr = s.ctr := rfl

theorem icd_snd_cases (s : SState) (b : String) (i cds now : Int) :
    (is_cooled_down s b i cds now).2 = s ∨
      (is_cooled_down s b i cds now).2 = { s with cooldowns := aset s.cooldowns b [] } := by
  unfold is_cooled_down
  by_cases h : cds ≤ 0
  · left; simp [h]
  · by_cases h2 : (alookup s.cooldowns b).isSome
    · left; simp [if_neg h, h2]
    · right; simp [if_neg h, h2]

theorem icd_shuffle (s : SState) (b : String) (i cds now : Int) :
    (is_cooled_down s b i cds now).2.shuffle = s.shuffle := by
  rcases icd_snd_cases s b i cds now with h | h <;> rw [h]

theorem icd_ctr (s : SState) (b : String) (i cds now : Int) :
    (is_cooled_down s b i cds now).2.ctr = s.ctr := by
  rcases icd_snd_cases s b i cds now with h | h <;> rw [h]

theorem icd_snd_of_some (s : SState) (b : String) (i cds now : Int)
    (h : (alookup s.cooldowns b).isSome) : (is_cooled_down s b i cds now).2 = s := by
  unfold is_cooled_down
  by_cases h1 : cds ≤ 0
  · simp [h1]
  · simp [if_neg h1, h]

theorem icd_cdLookup (s : SState) (b : String) (i cds now : Int) (b0 : String) (i0 : Int) :
    cdLookup (is_cooled_down s b i cds now).2 b0 i0 = cdLookup s b0 i0 := by
  by_cases hsome : (alookup s.cooldowns b).isSome
  · rw [icd_snd_of_some s b i cds now hsome]
  · rcases icd_snd_cases s b i cds now with h | h
    · rw [h]
    · rw [h]
      by_cases hb : b0 = b
      · subst hb
        have hn : alookup s.cooldowns b0 = none := by
          cases hx : alookup s.cooldowns b0 <;> simp_all
        simp [cdLookup, alookup_aset_self, hn, alookup]
      · simp [cdLookup, alookup_aset_ne _ _ _ _ hb]

theorem icd_true_iff (s : SState) (b : String) (i cds now : Int) :
    (is_cooled_down s b i cds now).1 = true ↔
      cds ≤ 0 ∨ cdLookup s b i = none ∨
        ∃ last, cdLookup s b i = some last ∧ now - last ≥ cds := by
  unfold is_cooled_down
  by_cases h : cds ≤ 0
  · simp [h]
  · rcases hcase : alookup s.cooldowns b with _ | m
    · have h1 : alookup (aset s.cooldowns b []) b = some [] := alookup_aset_self _ _ _
      simp [if_neg h, hcase, h1, alookup, cdLookup, h]
    · rcases hl : alookup m (toString i) with _ | last
      · simp [if_neg h, hcase, hl, cdLookup, h]
      · simp [if_neg h, hcase, hl, cdLookup, h]

end ArrSearch

namespace ArrSearch

/-! ## Semantic lemmas about `_refresh_bucket` -/

/-- The bag retained from the current cycle by a reconciliation. -/
def refBag0 (s : SState) (b : String) (e : List Int) : List Int :=
  (bagOf s b).filter (fun x => decide (x ∈ uniq e))

/-- The seen list retained from the current cycle by a reconciliation. -/
def refSeen0 (s : SState) (b : String) (e : List Int) : List Int :=
  (seenOf s b).filter (fun x => decide (x ∈ uniq e))

/-- The shuffled newly-eligible ids appended by a reconciliation. -/
def refNew (sh : Nat → List Int → List Int) (s : SState) (b : String) (e : List Int) :
    List Int :=
  sh s.ctr ((uniq e).filter
    (fun x => decide (x ∉ refBag0 s b e) && decide (x ∉ refSeen0 s b e)))

theorem refresh_eq2 (sh : Nat → List Int → List Int) (s : SState) (b : String) (e : List Int) :
    refresh_bucket sh s b e =
      if (refBag0 s b e ++ refNew sh s b e).isEmpty then
        { s with ctr := s.ctr + 2, shuffle := aset s.shuffle b ⟨sh (s.ctr + 1) (uniq e), []⟩ }
      else
        { s with ctr := s.ctr + 1, shuffle := aset s.shuffle b ⟨refBag0 s b e ++ refNew sh s b e, refSeen0 s b e⟩ } := by
  rw [refresh_eq]
  rfl

theorem refresh_cooldowns (sh : Nat → List Int → List Int) (s : SState) (b : String)
    (e : List Int) : (refresh_bucket sh s b e).cooldowns = s.cooldowns := by
  rw [refresh_eq2]; split <;> rfl

theorem refresh_shLookup_ne (sh : Nat → List Int → List Int) (s : SState) (b b0 : String)
    (e : List Int) (h : b0 ≠ b) :
    shLookup (refresh_bucket sh s b e) b0 = shLookup s b0 := by
  rw [refresh_eq2]; split <;> simp [shLookup, alookup_aset_ne _ _ _ _ h]

theorem refresh_shLookup_self (sh : Nat → List Int → List Int) (s : SState) (b : String)
    (e : List Int) :
    shLookup (refresh_bucket sh s b e) b =
      some (if (refBag0 s b e ++ refNew sh s b e).isEmpty then
              ⟨sh (s.ctr + 1) (uniq e), []⟩
            else ⟨refBag0 s b e ++ refNew sh s b e, refSeen0 s b e⟩) := by
  rw [refresh_eq2]
  split <;> simp [shLookup, alookup_aset_self]

theorem bagOf_refresh (sh : Nat → List Int → List Int) (s : SState) (b : String)
    (e : List Int) :
    bagOf (refresh_bucket sh s b e) b =
      if (refBag0 s b e ++ refNew sh s b e).isEmpty then sh (s.ctr + 1) (uniq e)
      else refBag0 s b e ++ refNew sh s b e := by
  rw [bagOf, refresh_shLookup_self]; split <;> rfl

theorem seenOf_refresh (sh : Nat → List Int → List Int) (s : SState) (b : String)
    (e : List Int) :
    seenOf (refresh_bucket sh s b e) b =
      if (refBag0 s b e ++ refNew sh s b e).isEmpty then [] else refSeen0 s b e := by
  rw [seenOf, refresh_shLookup_self]; split <;> rfl

theorem refresh_ctr (sh : Nat → List Int → List Int) (s : SState) (b : String)
    (e : List Int) :
    (refresh_bucket sh s b e).ctr =
      if (refBag0 s b e ++ refNew sh s b e).isEmpty then s.ctr + 2 else s.ctr + 1 := by
  rw [refresh_eq2]; split <;> rfl

theorem refresh_bag_mem (sh : Nat → List Int → List Int)
    (hsh : ∀ k l, (sh k l).Perm l) (s : SState) (b : String) (e : List Int) (x : Int)
    (hx : x ∈ bagOf (refresh_bucket sh s b e) b) : x ∈ uniq e := by
  rw [bagOf_refresh] at hx
  split at hx
  · exact ((hsh _ _).mem_iff).mp hx
  · rcases List.mem_append.mp hx with h1 | h1
    · exact of_decide_eq_true (List.mem_filter.mp h1).2
    · have h2 := ((hsh _ _).mem_iff).mp h1
      exact (List.mem_filter.mp h2).1

theorem refresh_seen_mem (sh : Nat → List Int → List Int) (s : SState) (b : String)
    (e : List Int) (x : Int)
    (hx : x ∈ seenOf (refresh_bucket sh s b e) b) : x ∈ uniq e := by
  rw [seenOf_refresh] at hx
  split at hx
  · simp at hx
  · exact of_decide_eq_true (List.mem_filter.mp hx).2

theorem refresh_bag_nodup (sh : Nat → List Int → List Int)
    (hsh : ∀ k l, (sh k l).Perm l) (s : SState) (b : String) (e : List Int)
    (hb : (bagOf s b).Nodup) : (bagOf (refresh_bucket sh s b e) b).Nodup := by
  rw [bagOf_refresh]
  split
  · exact ((hsh _ _).nodup_iff).mpr (nodup_uniq e)
  · refine List.Nodup.append ?_ ?_ ?_
    · exact hb.sublist (List.filter_sublist _)
    · exact ((hsh _ _).nodup_iff).mpr ((nodup_uniq e).sublist (List.filter_sublist _))
    · intro a ha1 ha2
      have h2 := ((hsh _ _).mem_iff).mp ha2
      have h3 := (List.mem_filter.mp h2).2
      rw [Bool.and_eq_true] at h3
      exact of_decide_eq_true h3.1 ha1

theorem refresh_seen_nodup (sh : Nat → List Int → List Int) (s : SState) (b : String)
    (e : List Int) (hs : (seenOf s b).Nodup) :
    (seenOf (refresh_bucket sh s b e) b).Nodup := by
  rw [seenOf_refresh]
  split
  · simp
  · exact hs.sublist (List.filter_sublist _)

theorem refresh_disjoint (sh : Nat → List Int → List Int)
    (hsh : ∀ k l, (sh k l).Perm l) (s : SState) (b : String) (e : List Int)
    (hd : ∀ x ∈ bagOf s b, x ∉ seenOf s b) (x : Int)
    (hx : x ∈ bagOf (refresh_bucket sh s b e) b) :
    x ∉ seenOf (refresh_bucket sh s b e) b := by
  rw [bagOf_refresh] at hx
  rw [seenOf_refresh]
  split at hx <;> rename_i hsplit
  · rw [if_pos hsplit]; simp
  · rw [if_neg hsplit]
    rcases List.mem_append.mp hx with h1 | h1
    · have h2 := List.mem_filter.mp h1
      intro hcon
      exact hd x h2.1 (List.mem_filter.mp hcon).1
    · have h2 := ((hsh _ _).mem_iff).mp h1
      have h3 := (List.mem_filter.mp h2).2
      rw [Bool.and_eq_true] at h3
      exact of_decide_eq_true h3.2

theorem refresh_covers (sh : Nat → List Int → List Int)
    (hsh : ∀ k l, (sh k l).Perm l) (s : SState) (b : String) (e : List Int) (x : Int)
    (hx : x ∈ uniq e) :
    x ∈ bagOf (refresh_bucket sh s b e) b ∨ x ∈ seenOf (refresh_bucket sh s b e) b := by
  rw [bagOf_refresh, seenOf_refresh]
  by_cases hempty : (refBag0 s b e ++ refNew sh s b e).isEmpty
  · left
    simp only [if_pos hempty]
    exact ((hsh _ _).mem_iff).mpr hx
  · simp only [if_neg hempty]
    by_cases h1 : x ∈ refBag0 s b e
    · exact Or.inl (List.mem_append_left _ h1)
    · by_cases h2 : x ∈ refSeen0 s b e
      · exact Or.inr h2
      · left
        refine List.mem_append_right _ (((hsh _ _).mem_iff).mpr ?_)
        refine List.mem_filter.mpr ⟨hx, ?_⟩
        rw [Bool.and_eq_true]
        exact ⟨decide_eq_true h1, decide_eq_true h2⟩

theorem refresh_bag_nonempty (sh : Nat → List Int → List Int)
    (hsh : ∀ k l, (sh k l).Perm l) (s : SState) (b : String) (e : List Int)
    (he : e ≠ []) : bagOf (refresh_bucket sh s b e) b ≠ [] := by
  rw [bagOf_refresh]
  split
  · intro hcon
    have hp := hsh (s.ctr + 1) (uniq e)
    rw [hcon] at hp
    exact uniq_ne_nil e he hp.symm.eq_nil
  · rename_i hsplit
    exact fun hcon => hsplit (by simp [hcon])

/-- When the current cycle already covers the eligible set and the bag is
non-empty, a reconciliation rewrites the bucket with its own contents
unchanged (advancing only the randomness counter past the empty shuffle). -/
theorem refresh_stable (sh : Nat → List Int → List Int)
    (hsh : ∀ k l, (sh k l).Perm l) (s : SState) (b : String) (e : List Int)
    (hbag : ∀ x ∈ bagOf s b, x ∈ uniq e) (hseen : ∀ x ∈ seenOf s b, x ∈ uniq e)
    (hcov : ∀ x ∈ uniq e, x ∈ bagOf s b ∨ x ∈ seenOf s b) (hne : bagOf s b ≠ []) :
    refresh_bucket sh s b e =
      { s with ctr := s.ctr + 1, shuffle := aset s.shuffle b ⟨bagOf s b, seenOf s b⟩ } := by
  have hb0 : refBag0 s b e = bagOf s b := by
    rw [refBag0]
    exact List.filter_eq_self.mpr (fun a ha => decide_eq_true (hbag a ha))
  have hs0 : refSeen0 s b e = seenOf s b := by
    rw [refSeen0]
    exact List.filter_eq_self.mpr (fun a ha => decide_eq_true (hseen a ha))
  have hnew : refNew sh s b e = [] := by
    rw [refNew]
    have hfil : (uniq e).filter
        (fun x => decide (x ∉ refBag0 s b e) && decide (x ∉ refSeen0 s b e)) = [] := by
      rw [hb0, hs0]
      refine List.filter_eq_nil_iff.mpr (fun a ha => ?_)
      rw [Bool.and_eq_true]
      rintro ⟨h1, h2⟩
      rcases hcov a ha with h | h
      · exact of_decide_eq_true h1 h
      · exact of_decide_eq_true h2 h
    rw [hfil]
    exact (hsh _ _).eq_nil
  rw [refresh_eq2, hb0, hs0, hnew, List.append_nil]
  rw [if_neg (show ¬((bagOf s b).isEmpty = true) by simpa using hne)]

end ArrSearch

namespace ArrSearch

/-! ## Key well-formedness (unique dict keys), used for persistence -/

/-- Unique bucket keys and unique id keys inside every cooldown bucket. -/
def CdWF (s : SState) : Prop :=
  (s.cooldowns.map Prod.fst).Nodup ∧ ∀ bm ∈ s.cooldowns, (bm.2.map Prod.fst).Nodup

/-- Unique bucket keys of the shuffle mapping. -/
def ShKeysWF (s : SState) : Prop := (s.shuffle.map Prod.fst).Nodup

theorem alookup_mem {β : Type} (l : List (String × β)) (k : String) (v : β)
    (h : alookup l k = some v) : (k, v) ∈ l := by
  induction l with
  | nil => simp [alookup] at h
  | cons hd t ih =>
    obtain ⟨k1, v1⟩ := hd
    by_cases hk : k = k1
    · subst hk
      have h2 : v1 = v := by simpa [alookup] using h
      simp [h2]
    · simp only [alookup, if_neg hk] at h
      exact List.mem_cons_of_mem _ (ih h)

theorem icd_CdWF (s : SState) (b : String) (i cds now : Int) (h : CdWF s) :
    CdWF (is_cooled_down s b i cds now).2 := by
  rcases icd_snd_cases s b i cds now with h1 | h1 <;> rw [h1]
  · exact h
  · constructor
    · exact nodup_keys_aset _ _ _ h.1
    · intro bm hbm
      rcases mem_aset _ _ _ _ hbm with h2 | h2
      · simp [h2]
      · exact h.2 bm h2

theorem mark_CdWF (s : SState) (b : String) (i now : Int) (h : CdWF s) :
    CdWF (mark_searched s b i now) := by
  constructor
  · exact nodup_keys_aset _ _ _ h.1
  · intro bm hbm
    rcases mem_aset _ _ _ _ hbm with h2 | h2
    · subst h2
      rcases hl : alookup s.cooldowns b with _ | m
      · simp [hl, aset]
      · simp only [hl, Option.getD_some]
        exact nodup_keys_aset _ _ _ (h.2 _ (alookup_mem _ _ _ hl))
    · exact h.2 bm h2

theorem setBag_ShKeysWF (s : SState) (b : String) (bag : List Int) (h : ShKeysWF s) :
    ShKeysWF (setBag s b bag) := nodup_keys_aset _ _ _ h

theorem pushSeen_ShKeysWF (s : SState) (b : String) (c : Int) (h : ShKeysWF s) :
    ShKeysWF (pushSeen s b c) := nodup_keys_aset _ _ _ h

theorem refresh_ShKeysWF (sh : Nat → List Int → List Int) (s : SState) (b : String)
    (e : List Int) (h : ShKeysWF s) : ShKeysWF (refresh_bucket sh s b e) := by
  rw [refresh_eq2]
  split <;> exact nodup_keys_aset _ _ _ h

theorem refresh_CdWF (sh : Nat → List Int → List Int) (s : SState) (b : String)
    (e : List Int) (h : CdWF s) : CdWF (refresh_bucket sh s b e) := by
  rcases h with ⟨h1, h2⟩
  exact ⟨by rw [refresh_cooldowns]; exact h1, by rw [refresh_cooldowns]; exact h2⟩

theorem mark_ShKeysWF (s : SState) (b : String) (i now : Int) (h : ShKeysWF s) :
    ShKeysWF (mark_searched s b i now) := h

theorem icd_ShKeysWF (s : SState) (b : String) (i cds now : Int) (h : ShKeysWF s) :
    ShKeysWF (is_cooled_down s b i cds now).2 := by
  unfold ShKeysWF
  rw [icd_shuffle]
  exact h

/-! ## Claim C8: the cooldown query condition -/

/-- C8: `is_cooled_down` returns true exactly when `cooldown_seconds <= 0`,
or no cooldown entry exists for the bucket and id, or
`now - lastSelectedAt >= cooldown_seconds`. -/
theorem cooldown_query_condition (s : SState) (b : String) (i cds now : Int) :
    (is_cooled_down s b i cds now).1 = true ↔
      cds ≤ 0 ∨ cdLookup s b i = none ∨
        ∃ last, cdLookup s b i = some last ∧ now - last ≥ cds :=
  icd_true_iff s b i cds now

/-! ## Claim C9: `is_cooled_down` is not entirely state-free -/

/-- C9 counterexample: on the empty store, querying bucket "b" with a
positive cooldown inserts an empty per-bucket dict into `cooldowns`
(`_cd_bucket`), so the picker state is not left unchanged. -/
theorem cooldown_query_mutates_state :
    (is_cooled_down emptySState "b" 1 1 0).2 ≠ emptySState := by decide

/-- C9 amended: `is_cooled_down` never changes the shuffle state, the
randomness position, or any (bucket, id) -> timestamp entry; the only
possible state change is the insertion of one empty per-bucket dict for the
queried bucket. -/
theorem cooldown_query_effect_bounded (s : SState) (b : String) (i cds now : Int) :
    (is_cooled_down s b i cds now).2.shuffle = s.shuffle ∧
    (is_cooled_down s b i cds now).2.ctr = s.ctr ∧
    (∀ b0 i0, cdLookup (is_cooled_down s b i cds now).2 b0 i0 = cdLookup s b0 i0) ∧
    ((is_cooled_down s b i cds now).2 = s ∨
      (is_cooled_down s b i cds now).2 = { s with cooldowns := aset s.cooldowns b [] }) :=
  ⟨icd_shuffle s b i cds now, icd_ctr s b i cds now,
    fun b0 i0 => icd_cdLookup s b i cds now b0 i0, icd_snd_cases s b i cds now⟩

end ArrSearch

namespace ArrSearch

/-! ## The inner rotation scan -/

theorem bagOf_congr (s t : SState) (b : String) (h : s.shuffle = t.shuffle) :
    bagOf s b = bagOf t b := by
  simp [bagOf, shLookup, h]

theorem seenOf_congr (s t : SState) (b : String) (h : s.shuffle = t.shuffle) :
    seenOf s b = seenOf t b := by
  simp [seenOf, shLookup, h]

theorem perm_rotate (c : Int) (l : List Int) : (l ++ [c]).Perm (c :: l) :=
  List.perm_append_singleton c l

/-- Frame and progress facts about the rotation scan, by one induction:
counter, foreign buckets, the seen list and all cooldown timestamps are
untouched; the bag is only rotated; key well-formedness survives; and a
successful scan leaves its result at the front of the bag. -/
theorem scanLoop_spec (b : String) (cds now : Int) :
    ∀ (fuel : Nat) (s : SState),
      (scanLoop b cds now fuel s).2.ctr = s.ctr ∧
      (∀ b0, b0 ≠ b → shLookup (scanLoop b cds now fuel s).2 b0 = shLookup s b0) ∧
      seenOf (scanLoop b cds now fuel s).2 b = seenOf s b ∧
      (bagOf (scanLoop b cds now fuel s).2 b).Perm (bagOf s b) ∧
      (∀ b0 i0, cdLookup (scanLoop b cds now fuel s).2 b0 i0 = cdLookup s b0 i0) ∧
      (CdWF s → CdWF (scanLoop b cds now fuel s).2) ∧
      (ShKeysWF s → ShKeysWF (scanLoop b cds now fuel s).2) ∧
      (∀ c, (scanLoop b cds now fuel s).1 = some c →
        ∃ t, bagOf (scanLoop b cds now fuel s).2 b = c :: t) := by
  intro fuel
  induction fuel with
  | zero =>
    intro s
    simp [scanLoop]
  | succ fuel ih =>
    intro s
    rcases hbag : bagOf s b with _ | ⟨candidate, rest⟩
    · simp [scanLoop, hbag]
    · by_cases hr : (is_cooled_down s b candidate cds now).1 = true
      · have hred : scanLoop b cds now (fuel + 1) s =
            (some candidate, (is_cooled_down s b candidate cds now).2) := by
          simp [scanLoop, hbag, hr]
        rw [hred]
        have hsh := icd_shuffle s b candidate cds now
        refine ⟨icd_ctr s b candidate cds now, ?_, ?_, ?_, ?_, ?_, ?_, ?_⟩
        · intro b0 _; simp [shLookup, hsh]
        · exact seenOf_congr _ _ _ hsh
        · rw [bagOf_congr _ _ _ hsh, hbag]
        · exact fun b0 i0 => icd_cdLookup s b candidate cds now b0 i0
        · exact icd_CdWF s b candidate cds now
        · exact icd_ShKeysWF s b candidate cds now
        · intro c hc
          cases hc
          exact ⟨rest, by rw [bagOf_congr _ _ _ hsh, hbag]⟩
      · have hred : scanLoop b cds now (fuel + 1) s =
            scanLoop b cds now fuel
              (setBag (is_cooled_down s b candidate cds now).2 b (rest ++ [candidate])) := by
          simp [scanLoop, hbag, hr]
        rw [hred]
        have hshr := icd_shuffle s b candidate cds now
        obtain ⟨ictr, ish, iseen, ibag, icd, icdwf, ishwf, ilast⟩ :=
          ih (setBag (is_cooled_down s b candidate cds now).2 b (rest ++ [candidate]))
        refine ⟨?_, ?_, ?_, ?_, ?_, ?_, ?_, ilast⟩
        · rw [ictr, setBag_ctr, icd_ctr]
        · intro b0 hb0
          rw [ish b0 hb0, shLookup_setBag_ne _ _ _ _ hb0]
          simp [shLookup, hshr]
        · rw [iseen, seenOf_setBag_self, seenOf_congr _ s b hshr]
        · refine ibag.trans ?_
          rw [bagOf_setBag_self]
          exact perm_rotate candidate rest
        · intro b0 i0
          rw [icd b0 i0]
          have h1 : cdLookup
              (setBag (is_cooled_down s b candidate cds now).2 b (rest ++ [candidate])) b0 i0 =
              cdLookup (is_cooled_down s b candidate cds now).2 b0 i0 := by
            simp [cdLookup, setBag_cooldowns]
          rw [h1]
          exact icd_cdLookup s b candidate cds now b0 i0
        · intro hwf
          exact icdwf (icd_CdWF s b candidate cds now hwf)
        · intro hwf
          exact ishwf (setBag_ShKeysWF _ _ _ (icd_ShKeysWF s b candidate cds now hwf))

/-- With cooldown disabled the scan immediately selects the bag head and
leaves the state untouched. -/
theorem scanLoop_cooldown_free (b : String) (cds now : Int) (hcds : cds ≤ 0)
    (fuel : Nat) (s : SState) (c : Int) (t : List Int) (hbag : bagOf s b = c :: t) :
    scanLoop b cds now (fuel + 1) s = (some c, s) := by
  simp [scanLoop, hbag, is_cooled_down, hcds]

end ArrSearch

namespace ArrSearch

/-! ## The outer draw loop: frame lemmas -/

theorem refresh_cdLookup (sh : Nat → List Int → List Int) (s : SState) (b : String)
    (e : List Int) (b0 : String) (i0 : Int) :
    cdLookup (refresh_bucket sh s b e) b0 i0 = cdLookup s b0 i0 := by
  simp [cdLookup, refresh_cooldowns]

theorem sh_bucket_of_some (s : SState) (b : String) (bb : ShBucket)
    (h : alookup s.shuffle b = some bb) : sh_bucket s b = (bb, s) := by
  simp [sh_bucket, h]

theorem sh_bucket_after_refresh (sh : Nat → List Int → List Int) (s : SState) (b : String)
    (e : List Int) : (sh_bucket (refresh_bucket sh s b e) b).2 = refresh_bucket sh s b e := by
  have h := refresh_shLookup_self sh s b e
  rw [shLookup] at h
  rw [sh_bucket_of_some _ _ _ h]

theorem mark_cdLookup_ne (s : SState) (b : String) (i now : Int) (b0 : String) (i0 : Int)
    (h : b0 ≠ b ∨ toString i0 ≠ toString i) :
    cdLookup (mark_searched s b i now) b0 i0 = cdLookup s b0 i0 := by
  unfold mark_searched cdLookup
  by_cases hb : b0 = b
  · subst hb
    rcases h with h | h
    · exact absurd rfl h
    · rcases hl : alookup s.cooldowns b0 with _ | m
      · simp [hl, alookup_aset_self, alookup_aset_ne _ _ _ _ h, alookup, h]
      · simp [hl, alookup_aset_self, alookup_aset_ne _ _ _ _ h]
  · simp [alookup_aset_ne _ _ _ _ hb]

/-- The state on which the outer loop recurses after selecting `c`. -/
def postPick (s2 : SState) (b : String) (c now : Int) (mark : Bool) : SState :=
  if mark then mark_searched (pushSeen (setBag s2 b (bagOf s2 b).tail) b c) b c now
  else pushSeen (setBag s2 b (bagOf s2 b).tail) b c

theorem draw_go_succ (sh : Nat → List Int → List Int) (b : String) (e : List Int)
    (cds now : Int) (mark : Bool) (n : Nat) (s : SState) (acc : List Int) :
    draw_go sh b e cds now mark (n + 1) s acc =
      (let s1 := if (bagOf s b).isEmpty then refresh_bucket sh s b e else s
       if (bagOf s1 b).isEmpty then (acc, s1)
       else
         match scanLoop b cds now (bagOf s1 b).length s1 with
         | (none, s2) => (acc, s2)
         | (some c, s2) => draw_go sh b e cds now mark n (postPick s2 b c now mark) (acc ++ [c])) := by
  rw [draw_go]
  rfl

theorem postPick_shLookup_ne (s2 : SState) (b : String) (c now : Int) (mark : Bool)
    (b0 : String) (hb0 : b0 ≠ b) :
    shLookup (postPick s2 b c now mark) b0 = shLookup s2 b0 := by
  have h1 : shLookup (postPick s2 b c now mark) b0 =
      shLookup (pushSeen (setBag s2 b (bagOf s2 b).tail) b c) b0 := by
    rw [postPick]; split
    · simp [shLookup, mark_shuffle]
    · rfl
  rw [h1, shLookup_pushSeen_ne _ _ _ _ hb0, shLookup_setBag_ne _ _ _ _ hb0]

theorem postPick_cdLookup_dry (s2 : SState) (b : String) (c now : Int)
    (b0 : String) (i0 : Int) :
    cdLookup (postPick s2 b c now false) b0 i0 = cdLookup s2 b0 i0 := by
  rw [postPick, if_neg (by simp)]
  simp [cdLookup, pushSeen_cooldowns, setBag_cooldowns]

theorem postPick_CdWF (s2 : SState) (b : String) (c now : Int) (mark : Bool)
    (h : CdWF s2) : CdWF (postPick s2 b c now mark) := by
  have h6 : CdWF (pushSeen (setBag s2 b (bagOf s2 b).tail) b c) := h
  rw [postPick]; split
  · exact mark_CdWF _ _ _ _ h6
  · exact h6

theorem postPick_ShKeysWF (s2 : SState) (b : String) (c now : Int) (mark : Bool)
    (h : ShKeysWF s2) : ShKeysWF (postPick s2 b c now mark) := by
  have h7 : ShKeysWF (pushSeen (setBag s2 b (bagOf s2 b).tail) b c) :=
    pushSeen_ShKeysWF _ _ _ (setBag_ShKeysWF _ _ _ h)
  rw [postPick]; split
  · exact mark_ShKeysWF _ _ _ _ h7
  · exact h7

/-- Frame facts of the outer loop, for all cooldowns and marks: foreign
buckets never change; a non-committing run never changes any cooldown
timestamp; at most one pick is appended per iteration; key well-formedness
survives. -/
theorem draw_go_frame (sh : Nat → List Int → List Int) (b : String) (e : List Int)
    (cds now : Int) (mark : Bool) :
    ∀ (n : Nat) (s : SState) (acc : List Int),
      (∀ b0, b0 ≠ b → shLookup (draw_go sh b e cds now mark n s acc).2 b0 = shLookup s b0) ∧
      (mark = false → ∀ b0 i0,
        cdLookup (draw_go sh b e cds now mark n s acc).2 b0 i0 = cdLookup s b0 i0) ∧
      (∃ ext, (draw_go sh b e cds now mark n s acc).1 = acc ++ ext ∧ ext.length ≤ n) ∧
      (CdWF s → CdWF (draw_go sh b e cds now mark n s acc).2) ∧
      (ShKeysWF s → ShKeysWF (draw_go sh b e cds now mark n s acc).2) := by
  intro n
  induction n with
  | zero =>
    intro s acc
    exact ⟨fun b0 _ => rfl, fun _ b0 i0 => rfl, ⟨[], by simp [draw_go]⟩,
      fun h => h, fun h => h⟩
  | succ n ih =>
    intro s acc
    rw [draw_go_succ]
    set s1 := if (bagOf s b).isEmpty then refresh_bucket sh s b e else s with hs1
    have hs1sh : ∀ b0, b0 ≠ b → shLookup s1 b0 = shLookup s b0 := by
      intro b0 hb0
      rw [hs1]; split
      · exact refresh_shLookup_ne sh s b b0 e hb0
      · rfl
    have hs1cd : ∀ b0 i0, cdLookup s1 b0 i0 = cdLookup s b0 i0 := by
      intro b0 i0
      rw [hs1]; split
      · exact refresh_cdLookup sh s b e b0 i0
      · rfl
    have hs1cdwf : CdWF s → CdWF s1 := by
      intro h
      rw [hs1]; split
      · exact refresh_CdWF sh s b e h
      · exact h
    have hs1shwf : ShKeysWF s → ShKeysWF s1 := by
      intro h
      rw [hs1]; split
      · exact refresh_ShKeysWF sh s b e h
      · exact h
    by_cases hbe : (bagOf s1 b).isEmpty
    · rw [if_pos hbe]
      exact ⟨hs1sh, fun _ b0 i0 => hs1cd b0 i0, ⟨[], by simp⟩, hs1cdwf, hs1shwf⟩
    · rw [if_neg hbe]
      obtain ⟨sctr, ssh, sseen, sbag, scd, scdwf, sshwf, slast⟩ :=
        scanLoop_spec b cds now (bagOf s1 b).length s1
      rcases hscan : scanLoop b cds now (bagOf s1 b).length s1 with ⟨rc, s2⟩
      rw [hscan] at sctr ssh sseen sbag scd scdwf sshwf slast
      cases rc with
      | none =>
        simp only [hscan]
        refine ⟨?_, ?_, ⟨[], by simp⟩, scdwf ∘ hs1cdwf, sshwf ∘ hs1shwf⟩
        · intro b0 hb0; rw [ssh b0 hb0, hs1sh b0 hb0]
        · intro _ b0 i0; rw [scd b0 i0, hs1cd b0 i0]
      | some c =>
        simp only [hscan]
        obtain ⟨ish, icd, ⟨ext, hext, hlen⟩, icdwf, ishwf⟩ :=
          ih (postPick s2 b c now mark) (acc ++ [c])
        refine ⟨?_, ?_, ?_, ?_, ?_⟩
        · intro b0 hb0
          rw [ish b0 hb0, postPick_shLookup_ne _ _ _ _ _ _ hb0, ssh b0 hb0, hs1sh b0 hb0]
        · intro hmark b0 i0
          subst hmark
          rw [icd rfl b0 i0, postPick_cdLookup_dry, scd b0 i0, hs1cd b0 i0]
        · exact ⟨c :: ext, by simp [hext], by simpa using Nat.succ_le_succ hlen⟩
        · exact fun h => icdwf (postPick_CdWF _ _ _ _ _ (scdwf (hs1cdwf h)))
        · exact fun h => ishwf (postPick_ShKeysWF _ _ _ _ _ (sshwf (hs1shwf h)))

end ArrSearch

namespace ArrSearch

/-! ## Claim C4: degenerate inputs -/

theorem pyIntList_ok (raw : List JVal) (h : ∀ v ∈ raw, ∃ n, pyInt v = .ok n) :
    ∃ l, pyIntList raw = .ok l := by
  induction raw with
  | nil => exact ⟨[], rfl⟩
  | cons x t ih =>
    obtain ⟨n, hn⟩ := h x (by simp)
    obtain ⟨l, hl⟩ := ih (fun v hv => h v (by simp [hv]))
    refine ⟨n :: l, ?_⟩
    unfold pyIntList
    rw [hn, hl]
    rfl

/-- C4 counterexample: a single malformed id makes `draw_no_repeat` raise
`ValueError` (the `int(x)` conversion at the top of the function), instead of
being filtered out. -/
theorem draw_raises_on_malformed_id :
    draw_no_repeat_raw idSh emptySState "b" [JVal.jstr "abc"] 1 0 0 true =
      .error () := rfl

/-- C4 amended: `draw_no_repeat` returns an ordered list of length at most
`count`; it returns the empty list whenever `count <= 0` (even for malformed
ids, since that check precedes the conversion) or the eligible set is empty;
and it never raises as long as every supplied id converts to an integer —
but a non-convertible id raises an uncaught `ValueError` rather than being
filtered out. -/
theorem draw_defensive_on_numeric_inputs :
    (∀ (sh : Nat → List Int → List Int) (s : SState) (b : String) (elig : List Int)
        (count cds now : Int) (mark : Bool),
      (draw_no_repeat sh s b elig count cds now mark).1.length ≤ count.toNat) ∧
    (∀ (sh : Nat → List Int → List Int) (s : SState) (b : String) (elig : List Int)
        (count cds now : Int) (mark : Bool), count ≤ 0 →
      draw_no_repeat sh s b elig count cds now mark = ([], s)) ∧
    (∀ (sh : Nat → List Int → List Int) (s : SState) (b : String)
        (count cds now : Int) (mark : Bool),
      draw_no_repeat sh s b [] count cds now mark = ([], s)) ∧
    (∀ (sh : Nat → List Int → List Int) (s : SState) (b : String) (raw : List JVal)
        (count cds now : Int) (mark : Bool), count ≤ 0 →
      draw_no_repeat_raw sh s b raw count cds now mark = .ok ([], s)) ∧
    (∀ (sh : Nat → List Int → List Int) (s : SState) (b : String) (raw : List JVal)
        (count cds now : Int) (mark : Bool),
      (∀ v ∈ raw, ∃ n, pyInt v = .ok n) →
      ∃ out, draw_no_repeat_raw sh s b raw count cds now mark = .ok out ∧
        out.1.length ≤ count.toNat) := by
  have hlen : ∀ (sh : Nat → List Int → List Int) (s : SState) (b : String)
      (elig : List Int) (count cds now : Int) (mark : Bool),
      (draw_no_repeat sh s b elig count cds now mark).1.length ≤ count.toNat := by
    intro sh s b elig count cds now mark
    rw [draw_no_repeat]
    split
    · simp
    · split
      · simp
      · obtain ⟨_, _, ⟨ext, hext, hlenx⟩, _, _⟩ :=
          draw_go_frame sh b elig cds now mark count.toNat
            ((sh_bucket (refresh_bucket sh s b elig) b).2) []
        rw [hext]
        simpa using hlenx
  refine ⟨hlen, ?_, ?_, ?_, ?_⟩
  · intro sh s b elig count cds now mark h
    rw [draw_no_repeat, if_pos h]
  · intro sh s b count cds now mark
    rw [draw_no_repeat]
    split
    · rfl
    · rfl
  · intro sh s b raw count cds now mark h
    rw [draw_no_repeat_raw, if_pos h]
  · intro sh s b raw count cds now mark h
    by_cases hc : count ≤ 0
    · exact ⟨([], s), by rw [draw_no_repeat_raw, if_pos hc], by simp⟩
    · obtain ⟨l, hl⟩ := pyIntList_ok raw h
      refine ⟨draw_no_repeat sh s b l count cds now mark, ?_, hlen _ _ _ _ _ _ _ _⟩
      rw [draw_no_repeat_raw, if_neg hc, hl]
      rfl

/-- Concrete instances of the amended C4 facts. -/
theorem draw_defensive_on_numeric_inputs_witness :
    (draw_no_repeat idSh emptySState "b" [1, 2] 5 0 0 true).1.length ≤ (5 : Int).toNat ∧
    draw_no_repeat idSh emptySState "b" [1, 2] (-1) 0 0 true = ([], emptySState) ∧
    draw_no_repeat_raw idSh emptySState "b" [JVal.jnum 1] (-2) 7 0 true =
      .ok ([], emptySState) ∧
    ∃ out, draw_no_repeat_raw idSh emptySState "b" [JVal.jnum 1] 1 0 0 true = .ok out ∧
      out.1.length ≤ (1 : Int).toNat :=
  ⟨draw_defensive_on_numeric_inputs.1 idSh emptySState "b" [1, 2] 5 0 0 true,
   draw_defensive_on_numeric_inputs.2.1 idSh emptySState "b" [1, 2] (-1) 0 0 true (by decide),
   draw_defensive_on_numeric_inputs.2.2.2.1 idSh emptySState "b" [JVal.jnum 1] (-2) 7 0 true
     (by decide),
   draw_defensive_on_numeric_inputs.2.2.2.2 idSh emptySState "b" [JVal.jnum 1] 1 0 0 true
     (by intro v hv; exact ⟨1, by rcases List.mem_singleton.mp hv with rfl; rfl⟩)⟩

/-! ## Claim C10: exact supply with cooldown disabled -/

theorem draw_go_count (sh : Nat → List Int → List Int) (hsh : ∀ k l, (sh k l).Perm l)
    (b : String) (e : List Int) (cds now : Int) (mark : Bool) (hcds : cds ≤ 0)
    (he : e ≠ []) :
    ∀ (n : Nat) (s : SState) (acc : List Int),
      (draw_go sh b e cds now mark n s acc).1.length = acc.length + n := by
  intro n
  induction n with
  | zero => intro s acc; simp [draw_go]
  | succ n ih =>
    intro s acc
    rw [draw_go_succ]
    set s1 := if (bagOf s b).isEmpty then refresh_bucket sh s b e else s with hs1
    have hne : bagOf s1 b ≠ [] := by
      rw [hs1]
      split <;> rename_i hsplit
      · exact refresh_bag_nonempty sh hsh s b e he
      · simpa using hsplit
    obtain ⟨c, t, hct⟩ : ∃ c t, bagOf s1 b = c :: t := by
      rcases hbag : bagOf s1 b with _ | ⟨c, t⟩
      · exact absurd hbag hne
      · exact ⟨c, t, rfl⟩
    rw [if_neg (by simp [hct])]
    have hlen : (bagOf s1 b).length = t.length + 1 := by rw [hct]; simp
    rw [hlen, scanLoop_cooldown_free b cds now hcds t.length s1 c t hct]
    show (draw_go sh b e cds now mark n (postPick s1 b c now mark) (acc ++ [c])).1.length =
      acc.length + (n + 1)
    rw [ih]
    simp
    omega

/-- C10: with `cooldown_seconds <= 0`, a positive `count` and a non-empty
eligible list, `draw_no_repeat` returns exactly `count` ids; and because the
bag auto-resets mid-draw once a cycle is exhausted, one call can return the
same id twice (eligible `[1]`, `count = 2` yields `[1, 1]`). -/
theorem draw_exact_count_when_no_cooldown :
    (∀ (sh : Nat → List Int → List Int), (∀ k l, (sh k l).Perm l) →
      ∀ (s : SState) (b : String) (elig : List Int) (count cds now : Int) (mark : Bool),
        cds ≤ 0 → 0 < count → elig ≠ [] →
        (draw_no_repeat sh s b elig count cds now mark).1.length = count.toNat) ∧
    (draw_no_repeat idSh emptySState "b" [1] 2 0 0 true).1 = [1, 1] := by
  constructor
  · intro sh hsh s b elig count cds now mark hcds hcount helig
    rw [draw_no_repeat, if_neg (by omega), if_neg (by simpa using helig)]
    rw [draw_go_count sh hsh b elig cds now mark hcds helig]
    simp
  · rfl

/-- Concrete instance of C10: eligible `{1, 2, 3}` with count 2 yields
exactly 2 picks; one id can repeat within an oversized draw. -/
theorem draw_exact_count_when_no_cooldown_witness :
    (draw_no_repeat idSh emptySState "b" [1, 2, 3] 2 0 0 true).1.length = (2 : Int).toNat ∧
    (draw_no_repeat idSh emptySState "b" [1] 2 0 0 true).1 = [1, 1] :=
  ⟨draw_exact_count_when_no_cooldown.1 idSh (fun _ l => List.Perm.refl l)
      emptySState "b" [1, 2, 3] 2 0 0 true (by decide) (by decide) (by decide),
   draw_exact_count_when_no_cooldown.2⟩

end ArrSearch

namespace ArrSearch

/-! ## Effect of one pick on the cycle record -/

theorem postPick_shuffle (u : SState) (b : String) (c now : Int) (m : Bool) :
    (postPick u b c now m).shuffle =
      aset u.shuffle b ⟨(bagOf u b).tail, seenOf u b ++ [c]⟩ := by
  have h : (pushSeen (setBag u b (bagOf u b).tail) b c).shuffle =
      aset u.shuffle b ⟨(bagOf u b).tail, seenOf u b ++ [c]⟩ := by
    show aset (setBag u b (bagOf u b).tail).shuffle b
        ⟨bagOf (setBag u b (bagOf u b).tail) b,
          seenOf (setBag u b (bagOf u b).tail) b ++ [c]⟩ = _
    rw [bagOf_setBag_self, seenOf_setBag_self]
    show aset (aset u.shuffle b ⟨(bagOf u b).tail, seenOf u b⟩) b
        ⟨(bagOf u b).tail, seenOf u b ++ [c]⟩ = _
    rw [aset_aset]
  rw [postPick]
  split
  · rw [mark_shuffle]; exact h
  · exact h

theorem postPick_ctr (u : SState) (b : String) (c now : Int) (m : Bool) :
    (postPick u b c now m).ctr = u.ctr := by
  rw [postPick]; split <;> rfl

theorem bagOf_postPick (u : SState) (b : String) (c now : Int) (m : Bool) :
    bagOf (postPick u b c now m) b = (bagOf u b).tail := by
  simp [bagOf, shLookup, postPick_shuffle, alookup_aset_self]

theorem seenOf_postPick (u : SState) (b : String) (c now : Int) (m : Bool) :
    seenOf (postPick u b c now m) b = seenOf u b ++ [c] := by
  simp [seenOf, shLookup, postPick_shuffle, alookup_aset_self]

/-! ## Claim C6: dry-run draws -/

theorem refresh_congr (sh : Nat → List Int → List Int) (s t : SState) (b : String)
    (e : List Int) (hshf : s.shuffle = t.shuffle) (hctr : s.ctr = t.ctr) :
    (refresh_bucket sh s b e).shuffle = (refresh_bucket sh t b e).shuffle ∧
    (refresh_bucket sh s b e).ctr = (refresh_bucket sh t b e).ctr := by
  have hb : bagOf s b = bagOf t b := bagOf_congr s t b hshf
  have hsn : seenOf s b = seenOf t b := seenOf_congr s t b hshf
  have h1 : refBag0 s b e = refBag0 t b e := by rw [refBag0, refBag0, hb]
  have h2 : refSeen0 s b e = refSeen0 t b e := by rw [refSeen0, refSeen0, hsn]
  have h3 : refNew sh s b e = refNew sh t b e := by rw [refNew, refNew, h1, h2, hctr]
  rw [refresh_eq2, refresh_eq2, h1, h2, h3, hctr, hshf]
  split <;> exact ⟨rfl, rfl⟩

/-- One unfolding of the outer loop with the post-reconciliation state made
explicit. -/
theorem draw_go_succ_core (sh : Nat → List Int → List Int) (b : String) (e : List Int)
    (cds now : Int) (mark : Bool) (n : Nat) (s s1 : SState) (acc : List Int)
    (h : s1 = if (bagOf s b).isEmpty then refresh_bucket sh s b e else s) :
    draw_go sh b e cds now mark (n + 1) s acc =
      (if (bagOf s1 b).isEmpty then (acc, s1)
       else
         match scanLoop b cds now (bagOf s1 b).length s1 with
         | (none, s2) => (acc, s2)
         | (some c, s2) =>
           draw_go sh b e cds now mark n (postPick s2 b c now mark) (acc ++ [c])) := by
  subst h
  rw [draw_go_succ]

theorem draw_go_mark_irrel (sh : Nat → List Int → List Int) (b : String) (e : List Int)
    (cds now : Int) (hcds : cds ≤ 0) :
    ∀ (n : Nat) (s t : SState) (acc : List Int), s.shuffle = t.shuffle → s.ctr = t.ctr →
      (draw_go sh b e cds now false n s acc).1 = (draw_go sh b e cds now true n t acc).1 ∧
      (draw_go sh b e cds now false n s acc).2.shuffle =
        (draw_go sh b e cds now true n t acc).2.shuffle ∧
      (draw_go sh b e cds now false n s acc).2.ctr =
        (draw_go sh b e cds now true n t acc).2.ctr := by
  intro n
  induction n with
  | zero => intro s t acc h1 h2; exact ⟨rfl, h1, h2⟩
  | succ n ih =>
    intro s t acc hshf hctr
    have hbag : bagOf s b = bagOf t b := bagOf_congr s t b hshf
    set s1 := if (bagOf s b).isEmpty then refresh_bucket sh s b e else s with hs1
    set t1 := if (bagOf t b).isEmpty then refresh_bucket sh t b e else t with ht1
    have hrel : s1.shuffle = t1.shuffle ∧ s1.ctr = t1.ctr := by
      rw [hs1, ht1, ← hbag]
      by_cases hbe : (bagOf s b).isEmpty
      · rw [if_pos hbe, if_pos hbe]; exact refresh_congr sh s t b e hshf hctr
      · rw [if_neg hbe, if_neg hbe]; exact ⟨hshf, hctr⟩
    rw [draw_go_succ_core sh b e cds now false n s s1 acc hs1,
        draw_go_succ_core sh b e cds now true n t t1 acc ht1]
    have hbag1 : bagOf s1 b = bagOf t1 b := bagOf_congr s1 t1 b hrel.1
    rw [← hbag1]
    by_cases hbe1 : (bagOf s1 b).isEmpty
    · rw [if_pos hbe1, if_pos hbe1]
      exact ⟨rfl, hrel.1, hrel.2⟩
    · rw [if_neg hbe1, if_neg hbe1]
      obtain ⟨c, u, hcu⟩ : ∃ c u, bagOf s1 b = c :: u := by
        rcases h2 : bagOf s1 b with _ | ⟨c, u⟩
        · rw [h2] at hbe1; simp at hbe1
        · exact ⟨c, u, rfl⟩
      have hcu2 : bagOf t1 b = c :: u := hbag1 ▸ hcu
      have hl1 : (bagOf s1 b).length = u.length + 1 := by rw [hcu]; simp
      rw [hl1, scanLoop_cooldown_free b cds now hcds u.length s1 c u hcu,
          scanLoop_cooldown_free b cds now hcds u.length t1 c u hcu2]
      refine ih (postPick s1 b c now false) (postPick t1 b c now true) (acc ++ [c]) ?_ ?_
      · rw [postPick_shuffle, postPick_shuffle, hrel.1, hbag1, seenOf_congr s1 t1 b hrel.1]
      · rw [postPick_ctr, postPick_ctr, hrel.2]

theorem sh_bucket_cooldowns (s : SState) (b : String) :
    (sh_bucket s b).2.cooldowns = s.cooldowns := by
  unfold sh_bucket
  cases alookup s.shuffle b <;> rfl

/-- C6 counterexample: with a positive cooldown, a committing draw can block
itself mid-call after a cycle reset while a dry run does not, so `mark=false`
does not advance `bag`/`seen` exactly as a committing draw would (bucket "b",
eligible `[1]`, count 2, cooldown 100, fresh store, time 0: the dry run picks
`[1, 1]` and ends with `seen = [1]`, the committing draw picks `[1]` and ends
with `bag = [1]`). -/
theorem dry_run_cycle_divergence :
    (draw_no_repeat idSh emptySState "b" [1] 2 100 0 false).2.shuffle ≠
      (draw_no_repeat idSh emptySState "b" [1] 2 100 0 true).2.shuffle ∧
    (draw_no_repeat idSh emptySState "b" [1] 2 100 0 false).1 ≠
      (draw_no_repeat idSh emptySState "b" [1] 2 100 0 true).1 := by
  constructor <;> decide

/-- C6 amended: a `mark=false` draw never creates or updates any cooldown
timestamp — every `(bucket, id)` lookup is unchanged — and when
`cooldown_seconds <= 0` it returns the same picks and the same `bag`/`seen`
state as the committing draw; with a positive cooldown the committing draw's
own mid-call marks can change later picks of the same call. -/
theorem dry_run_no_cooldown_writes :
    (∀ (sh : Nat → List Int → List Int) (s : SState) (b : String) (elig : List Int)
        (count cds now : Int) (b0 : String) (i0 : Int),
      cdLookup (draw_no_repeat sh s b elig count cds now false).2 b0 i0 =
        cdLookup s b0 i0) ∧
    (∀ (sh : Nat → List Int → List Int) (s : SState) (b : String) (elig : List Int)
        (count cds now : Int), cds ≤ 0 →
      (draw_no_repeat sh s b elig count cds now false).1 =
        (draw_no_repeat sh s b elig count cds now true).1 ∧
      (draw_no_repeat sh s b elig count cds now false).2.shuffle =
        (draw_no_repeat sh s b elig count cds now true).2.shuffle) := by
  constructor
  · intro sh s b elig count cds now b0 i0
    rw [draw_no_repeat]
    split
    · rfl
    · split
      · rfl
      · obtain ⟨_, hdry, _, _, _⟩ :=
          draw_go_frame sh b elig cds now false count.toNat
            ((sh_bucket (refresh_bucket sh s b elig) b).2) []
        rw [hdry rfl b0 i0]
        have h1 : cdLookup ((sh_bucket (refresh_bucket sh s b elig) b).2) b0 i0 =
            cdLookup (refresh_bucket sh s b elig) b0 i0 := by
          simp [cdLookup, sh_bucket_cooldowns]
        rw [h1, refresh_cdLookup]
  · intro sh s b elig count cds now hcds
    rw [draw_no_repeat, draw_no_repeat]
    split
    · exact ⟨rfl, rfl⟩
    · split
      · exact ⟨rfl, rfl⟩
      · obtain ⟨h1, h2, _⟩ := draw_go_mark_irrel sh b elig cds now hcds count.toNat
          ((sh_bucket (refresh_bucket sh s b elig) b).2)
          ((sh_bucket (refresh_bucket sh s b elig) b).2) [] rfl rfl
        exact ⟨h1, h2⟩

/-- Concrete instance of the amended C6 facts: a dry draw with cooldown 5
changes no cooldown entry, and with cooldown 0 dry and committing draws agree
on picks and cycle state. -/
theorem dry_run_no_cooldown_writes_witness :
    cdLookup (draw_no_repeat idSh emptySState "b" [1, 2] 2 5 0 false).2 "b" 1 =
      cdLookup emptySState "b" 1 ∧
    (draw_no_repeat idSh emptySState "b" [1, 2] 2 0 0 false).1 =
      (draw_no_repeat idSh emptySState "b" [1, 2] 2 0 0 true).1 ∧
    (draw_no_repeat idSh emptySState "b" [1, 2] 2 0 0 false).2.shuffle =
      (draw_no_repeat idSh emptySState "b" [1, 2] 2 0 0 true).2.shuffle :=
  ⟨dry_run_no_cooldown_writes.1 idSh emptySState "b" [1, 2] 2 5 0 "b" 1,
   (dry_run_no_cooldown_writes.2 idSh emptySState "b" [1, 2] 2 0 0 (by decide)).1,
   (dry_run_no_cooldown_writes.2 idSh emptySState "b" [1, 2] 2 0 0 (by decide)).2⟩

end ArrSearch

namespace ArrSearch

/-! ## Claim C2: cooldown gating -/

theorem uniq_singleton (x : Int) : uniq [x] = [x] := by
  simp [uniq, uniqAux]

theorem scanLoop_blocked (b : String) (cds now x t0 : Int)
    (hT : 0 < cds) (hlt : now - t0 < cds) :
    ∀ (fuel : Nat) (s : SState), cdLookup s b x = some t0 → (∀ y ∈ bagOf s b, y = x) →
      (scanLoop b cds now fuel s).1 = none := by
  intro fuel
  induction fuel with
  | zero => intro s _ _; rfl
  | succ fuel ih =>
    intro s hcd hall
    rcases hbag : bagOf s b with _ | ⟨c, rest⟩
    · simp [scanLoop, hbag]
    · have hcx : c = x := hall c (by rw [hbag]; simp)
      rw [hcx] at hbag
      have hfalse : ¬((is_cooled_down s b x cds now).1 = true) := by
        rw [icd_true_iff]
        push_neg
        refine ⟨by omega, by simp [hcd], ?_⟩
        intro last hlast
        rw [hcd, Option.some_inj] at hlast
        omega
      have hred : scanLoop b cds now (fuel + 1) s =
          scanLoop b cds now fuel
            (setBag (is_cooled_down s b x cds now).2 b (rest ++ [x])) := by
        simp [scanLoop, hbag, hfalse]
      rw [hred]
      refine ih (setBag (is_cooled_down s b x cds now).2 b (rest ++ [x])) ?_ ?_
      · have h1 : cdLookup (setBag (is_cooled_down s b x cds now).2 b (rest ++ [x])) b x =
            cdLookup (is_cooled_down s b x cds now).2 b x := by
          simp [cdLookup, setBag_cooldowns]
        rw [h1, icd_cdLookup, hcd]
      · intro y hy
        rw [bagOf_setBag_self] at hy
        rcases List.mem_append.mp hy with h1 | h1
        · exact hall y (by rw [hbag]; simp [h1])
        · rcases List.mem_singleton.mp h1 with rfl
          rfl

/-- C2: after a committed pick of `x` recorded at `t0` with cooldown `T > 0`,
a draw for a bucket whose only eligible id is `x` returns the empty list while
`now - t0 < T`, and `x` is drawn again (it heads the result) once
`now - t0 >= T`. -/
theorem cooldown_gating (sh : Nat → List Int → List Int)
    (hsh : ∀ k l, (sh k l).Perm l) (s : SState) (b : String) (x T t0 count now : Int)
    (hT : 0 < T) (hcd : cdLookup s b x = some t0) (hcount : 0 < count) :
    (now - t0 < T → (draw_no_repeat sh s b [x] count T now true).1 = []) ∧
    (T ≤ now - t0 → x ∈ (draw_no_repeat sh s b [x] count T now true).1) := by
  have hnotle : ¬(count ≤ 0) := by omega
  have hnotempty : ¬(([x] : List Int).isEmpty = true) := by simp
  obtain ⟨n, hn⟩ : ∃ n, count.toNat = n + 1 := ⟨count.toNat - 1, by omega⟩
  have hs1ne : bagOf (refresh_bucket sh s b [x]) b ≠ [] :=
    refresh_bag_nonempty sh hsh s b [x] (by simp)
  have hs1all : ∀ y ∈ bagOf (refresh_bucket sh s b [x]) b, y = x := by
    intro y hy
    have := refresh_bag_mem sh hsh s b [x] y hy
    rw [uniq_singleton] at this
    exact List.mem_singleton.mp this
  have hs1cd : cdLookup (refresh_bucket sh s b [x]) b x = some t0 := by
    rw [refresh_cdLookup]; exact hcd
  obtain ⟨rest, hrest⟩ : ∃ rest, bagOf (refresh_bucket sh s b [x]) b = x :: rest := by
    rcases h2 : bagOf (refresh_bucket sh s b [x]) b with _ | ⟨c, rest⟩
    · exact absurd h2 hs1ne
    · have : c = x := hs1all c (by rw [h2]; simp)
      subst this
      exact ⟨rest, rfl⟩
  have hwrap : draw_no_repeat sh s b [x] count T now true =
      draw_go sh b [x] T now true count.toNat (refresh_bucket sh s b [x]) [] := by
    rw [draw_no_repeat, if_neg hnotle, if_neg hnotempty]
    show draw_go sh b [x] T now true count.toNat
      ((sh_bucket (refresh_bucket sh s b [x]) b).2) [] = _
    rw [sh_bucket_after_refresh]
  constructor
  · intro hlt
    rw [hwrap, hn,
      draw_go_succ_core sh b [x] T now true n (refresh_bucket sh s b [x])
        (refresh_bucket sh s b [x]) [] (by rw [if_neg (by simpa using hs1ne)])]
    rw [if_neg (by simpa using hs1ne)]
    have hblock := scanLoop_blocked b T now x t0 hT hlt
      (bagOf (refresh_bucket sh s b [x]) b).length (refresh_bucket sh s b [x]) hs1cd hs1all
    rcases hscan : scanLoop b T now (bagOf (refresh_bucket sh s b [x]) b).length
        (refresh_bucket sh s b [x]) with ⟨rc, s2⟩
    rw [hscan] at hblock
    cases rc with
    | none => simp only [hscan]
    | some c => simp at hblock
  · intro hge
    rw [hwrap, hn,
      draw_go_succ_core sh b [x] T now true n (refresh_bucket sh s b [x])
        (refresh_bucket sh s b [x]) [] (by rw [if_neg (by simpa using hs1ne)])]
    rw [if_neg (by simpa using hs1ne)]
    have htrue : (is_cooled_down (refresh_bucket sh s b [x]) b x T now).1 = true := by
      rw [icd_true_iff]
      exact Or.inr (Or.inr ⟨t0, hs1cd, by omega⟩)
    have hlen : (bagOf (refresh_bucket sh s b [x]) b).length = rest.length + 1 := by
      rw [hrest]; simp
    have hscan : scanLoop b T now (bagOf (refresh_bucket sh s b [x]) b).length
        (refresh_bucket sh s b [x]) =
        (some x, (is_cooled_down (refresh_bucket sh s b [x]) b x T now).2) := by
      rw [hlen]
      simp [scanLoop, hrest, htrue]
    rw [hscan]
    obtain ⟨_, _, ⟨ext, hext, _⟩, _, _⟩ :=
      draw_go_frame sh b [x] T now true n
        (postPick (is_cooled_down (refresh_bucket sh s b [x]) b x T now).2 b x now true)
        ([] ++ [x])
    show x ∈ (draw_go sh b [x] T now true n
      (postPick (is_cooled_down (refresh_bucket sh s b [x]) b x T now).2 b x now true)
      ([] ++ [x])).1
    rw [hext]
    simp

/-- Concrete instance of C2: id 1 committed at time 0 with cooldown 10 is not
drawable at time 5 and drawable again at time 12. -/
theorem cooldown_gating_witness :
    (0 : Int) < 10 ∧ cdLookup ⟨[("b", [("1", 0)])], [], 0⟩ "b" 1 = some 0 ∧
    (draw_no_repeat idSh ⟨[("b", [("1", 0)])], [], 0⟩ "b" [1] 1 10 5 true).1 = [] ∧
    1 ∈ (draw_no_repeat idSh ⟨[("b", [("1", 0)])], [], 0⟩ "b" [1] 1 10 12 true).1 :=
  ⟨by decide, by decide,
   (cooldown_gating idSh (fun _ l => List.Perm.refl l) ⟨[("b", [("1", 0)])], [], 0⟩
      "b" 1 10 0 1 5 (by decide) (by decide) (by decide)).1 (by decide),
   (cooldown_gating idSh (fun _ l => List.Perm.refl l) ⟨[("b", [("1", 0)])], [], 0⟩
      "b" 1 10 0 1 12 (by decide) (by decide) (by decide)).2 (by decide)⟩

end ArrSearch

namespace ArrSearch

/-! ## Claim C1: no repeat within a cycle -/

theorem refresh_from_empty (sh : Nat → List Int → List Int)
    (hsh : ∀ k l, (sh k l).Perm l) (s : SState) (b : String) (E : List Int)
    (hs : shLookup s b = none) (hEne : E ≠ []) :
    refresh_bucket sh s b E =
      { s with ctr := s.ctr + 1, shuffle := aset s.shuffle b ⟨sh s.ctr (uniq E), []⟩ } := by
  have hbag : bagOf s b = [] := by simp [bagOf, hs]
  have hseen : seenOf s b = [] := by simp [seenOf, hs]
  have hb0 : refBag0 s b E = [] := by simp [refBag0, hbag]
  have hs0 : refSeen0 s b E = [] := by simp [refSeen0, hseen]
  have hnew : refNew sh s b E = sh s.ctr (uniq E) := by
    rw [refNew, hb0, hs0]
    congr 1
    exact List.filter_eq_self.mpr (fun a _ => by simp)
  have hshne : sh s.ctr (uniq E) ≠ [] := by
    intro hcon
    have hp := hsh s.ctr (uniq E)
    rw [hcon] at hp
    exact uniq_ne_nil E hEne hp.symm.eq_nil
  have hne2 : ¬((refBag0 s b E ++ refNew sh s b E).isEmpty = true) := by
    rw [hb0, hnew]
    simpa using hshne
  rw [refresh_eq2, if_neg hne2, hb0, hs0, hnew]
  rfl

/-- A single committed size-1 draw with no cooldown, from a state whose cycle
record covers the eligible set: it pops the bag head into `seen`. -/
theorem draw_one_cycle_step (sh : Nat → List Int → List Int)
    (hsh : ∀ k l, (sh k l).Perm l) (b : String) (E : List Int) (now : Int)
    (s : SState) (c : Int) (rest sn : List Int)
    (hlook : shLookup s b = some ⟨c :: rest, sn⟩)
    (hbagmem : ∀ y ∈ c :: rest, y ∈ uniq E) (hsnmem : ∀ y ∈ sn, y ∈ uniq E)
    (hcov : ∀ y ∈ uniq E, y ∈ c :: rest ∨ y ∈ sn) (hEne : E ≠ []) :
    (draw_no_repeat sh s b E 1 0 now true).1 = [c] ∧
    shLookup (draw_no_repeat sh s b E 1 0 now true).2 b = some ⟨rest, sn ++ [c]⟩ := by
  have hbag : bagOf s b = c :: rest := by simp [bagOf, hlook]
  have hseen : seenOf s b = sn := by simp [seenOf, hlook]
  have hstable : refresh_bucket sh s b E =
      { s with ctr := s.ctr + 1, shuffle := aset s.shuffle b ⟨bagOf s b, seenOf s b⟩ } :=
    refresh_stable sh hsh s b E (hbag ▸ hbagmem) (hseen ▸ hsnmem)
      (by intro y hy; rw [hbag, hseen]; exact hcov y hy) (by rw [hbag]; simp)
  have hwrap : draw_no_repeat sh s b E 1 0 now true =
      draw_go sh b E 0 now true 1 (refresh_bucket sh s b E) [] := by
    rw [draw_no_repeat, if_neg (by omega), if_neg (by simpa using hEne)]
    show draw_go sh b E 0 now true (1 : Int).toNat
      ((sh_bucket (refresh_bucket sh s b E) b).2) [] = _
    rw [sh_bucket_after_refresh]
    rfl
  have hbag1 : bagOf (refresh_bucket sh s b E) b = c :: rest := by
    rw [hstable, hbag]
    simp [bagOf, shLookup, alookup_aset_self]
  have hseen1 : seenOf (refresh_bucket sh s b E) b = sn := by
    rw [hstable, hbag, hseen]
    simp [seenOf, shLookup, alookup_aset_self]
  have hgo : draw_go sh b E 0 now true 1 (refresh_bucket sh s b E) [] =
      ([c], postPick (refresh_bucket sh s b E) b c now true) := by
    rw [draw_go_succ_core sh b E 0 now true 0 (refresh_bucket sh s b E)
      (refresh_bucket sh s b E) [] (by rw [if_neg (by simp [hbag1])])]
    rw [if_neg (by simp [hbag1])]
    have hlen : (bagOf (refresh_bucket sh s b E) b).length = rest.length + 1 := by
      rw [hbag1]; simp
    rw [hlen, scanLoop_cooldown_free b 0 now (by omega) rest.length _ c rest hbag1]
    rfl
  rw [hwrap, hgo]
  refine ⟨rfl, ?_⟩
  rw [shLookup]
  rw [postPick_shuffle, hbag1, hseen1]
  simp [alookup_aset_self]

/-- `k` further committed size-1 draws with no cooldown walk the bag in
order, as long as the cycle record covers the eligible set. -/
theorem draw_seq_take (sh : Nat → List Int → List Int)
    (hsh : ∀ k l, (sh k l).Perm l) (b : String) (E : List Int) (now : Int)
    (hEne : E ≠ []) :
    ∀ (k : Nat) (s : SState) (bag sn : List Int),
      shLookup s b = some ⟨bag, sn⟩ →
      (∀ y ∈ bag, y ∈ uniq E) → (∀ y ∈ sn, y ∈ uniq E) →
      (∀ y ∈ uniq E, y ∈ bag ∨ y ∈ sn) →
      k ≤ bag.length →
      (drawSeq sh b E 0 now true k s).1 = bag.take k := by
  intro k
  induction k with
  | zero => intro s bag sn _ _ _ _ _; simp [drawSeq]
  | succ k ih =>
    intro s bag sn hlook hbagmem hsnmem hcov hk
    rcases bag with _ | ⟨c, rest⟩
    · simp at hk
    · obtain ⟨h1, h2⟩ := draw_one_cycle_step sh hsh b E now s c rest sn hlook
        hbagmem hsnmem hcov hEne
      rw [drawSeq]
      have hrec := ih (draw_no_repeat sh s b E 1 0 now true).2 rest (sn ++ [c]) h2
        (fun y hy => hbagmem y (by simp [hy]))
        (fun y hy => by
          rcases List.mem_append.mp hy with h3 | h3
          · exact hsnmem y h3
          · rcases List.mem_singleton.mp h3 with rfl
            exact hbagmem y (by simp))
        (fun y hy => by
          rcases hcov y hy with h3 | h3
          · rcases List.mem_cons.mp h3 with rfl | h4
            · exact Or.inr (by simp)
            · exact Or.inl h4
          · exact Or.inr (by simp [h3]))
        (by simpa using hk)
      rw [h1, hrec]
      simp

/-- The first committed size-1 draw with no cooldown on an absent bucket:
the reconciliation seeds the bag with the shuffled eligible set, and the
draw pops its head. -/
theorem draw_one_from_empty (sh : Nat → List Int → List Int)
    (hsh : ∀ k l, (sh k l).Perm l) (b : String) (E : List Int) (now : Int)
    (s : SState) (hs : shLookup s b = none) (hEne : E ≠ []) (c : Int) (rest : List Int)
    (hcr : sh s.ctr (uniq E) = c :: rest) :
    (draw_no_repeat sh s b E 1 0 now true).1 = [c] ∧
    shLookup (draw_no_repeat sh s b E 1 0 now true).2 b = some ⟨rest, [c]⟩ := by
  have hwrap : draw_no_repeat sh s b E 1 0 now true =
      draw_go sh b E 0 now true 1 (refresh_bucket sh s b E) [] := by
    rw [draw_no_repeat, if_neg (by omega), if_neg (by simpa using hEne)]
    show draw_go sh b E 0 now true (1 : Int).toNat
      ((sh_bucket (refresh_bucket sh s b E) b).2) [] = _
    rw [sh_bucket_after_refresh]
    rfl
  have hbag1 : bagOf (refresh_bucket sh s b E) b = c :: rest := by
    rw [refresh_from_empty sh hsh s b E hs hEne]
    show ((alookup (aset s.shuffle b ⟨sh s.ctr (uniq E), []⟩) b).getD ⟨[], []⟩).bag = _
    rw [alookup_aset_self, hcr]
    rfl
  have hseen1 : seenOf (refresh_bucket sh s b E) b = [] := by
    rw [refresh_from_empty sh hsh s b E hs hEne]
    show ((alookup (aset s.shuffle b ⟨sh s.ctr (uniq E), []⟩) b).getD ⟨[], []⟩).seen = _
    rw [alookup_aset_self]
    rfl
  have hgo : draw_go sh b E 0 now true 1 (refresh_bucket sh s b E) [] =
      ([c], postPick (refresh_bucket sh s b E) b c now true) := by
    rw [draw_go_succ_core sh b E 0 now true 0 (refresh_bucket sh s b E)
      (refresh_bucket sh s b E) [] (by rw [if_neg (by simp [hbag1])])]
    rw [if_neg (by simp [hbag1])]
    have hlen : (bagOf (refresh_bucket sh s b E) b).length = rest.length + 1 := by
      rw [hbag1]; simp
    rw [hlen, scanLoop_cooldown_free b 0 now (by omega) rest.length _ c rest hbag1]
    rfl
  rw [hwrap, hgo]
  refine ⟨rfl, ?_⟩
  rw [shLookup, postPick_shuffle, hbag1, hseen1]
  simp [alookup_aset_self]

/-- C1: starting from an initially-empty bucket, `|E|` consecutive committed
draws of size 1 with no cooldown return a permutation of the (duplicate-free)
eligible set `E`: every element exactly once, with no repeats before the
cycle completes. -/
theorem no_repeat_within_cycle (sh : Nat → List Int → List Int)
    (hsh : ∀ k l, (sh k l).Perm l) (E : List Int) (hE : E.Nodup) (b : String)
    (s : SState) (hs : shLookup s b = none) (now : Int) :
    ((drawSeq sh b E 0 now true E.length s).1).Perm E := by
  by_cases hEnil : E = []
  · subst hEnil
    simp [drawSeq]
  · have hEne : E ≠ [] := hEnil
    have hB0 : (sh s.ctr (uniq E)).Perm E := by
      have hup : (uniq E).Perm E := by
        rw [uniq_eq_self E hE]
      exact (hsh s.ctr (uniq E)).trans hup
    have hB0len : (sh s.ctr (uniq E)).length = E.length := hB0.length_eq
    have hB0ne : sh s.ctr (uniq E) ≠ [] := by
      intro hcon
      have hp := hsh s.ctr (uniq E)
      rw [hcon] at hp
      exact uniq_ne_nil E hEne hp.symm.eq_nil
    obtain ⟨c, rest, hcr⟩ : ∃ c rest, sh s.ctr (uniq E) = c :: rest := by
      rcases h2 : sh s.ctr (uniq E) with _ | ⟨c, rest⟩
      · exact absurd h2 hB0ne
      · exact ⟨c, rest, rfl⟩
    have hmem : ∀ y ∈ c :: rest, y ∈ uniq E := by
      intro y hy
      rw [← hcr] at hy
      exact ((hsh s.ctr (uniq E)).mem_iff).mp hy
    have hlen : E.length = rest.length + 1 := by
      rw [← hB0len, hcr]; simp
    obtain ⟨h1, h2⟩ := draw_one_from_empty sh hsh b E now s hs hEne c rest hcr
    have hrec := draw_seq_take sh hsh b E now hEne rest.length
      (draw_no_repeat sh s b E 1 0 now true).2 rest [c] h2
      (fun y hy => hmem y (by simp [hy]))
      (fun y hy => by
        have h5 : y = c := List.mem_singleton.mp hy
        exact hmem y (by simp [h5]))
      (fun y hy => by
        have h3 : y ∈ c :: rest := by
          rw [← hcr]
          exact ((hsh s.ctr (uniq E)).mem_iff).mpr hy
        rcases List.mem_cons.mp h3 with h4 | h4
        · exact Or.inr (by simp [h4])
        · exact Or.inl h4)
      (le_refl rest.length)
    rw [hlen, drawSeq]
    show ((draw_no_repeat sh s b E 1 0 now true).1 ++
      (drawSeq sh b E 0 now true rest.length (draw_no_repeat sh s b E 1 0 now true).2).1).Perm E
    rw [h1, hrec, List.take_length]
    have hfin : (c :: rest).Perm E := hcr ▸ hB0
    simpa using hfin

/-- Concrete instance of C1: three draws from eligible `{4, 7, 9}` return a
permutation of it. -/
theorem no_repeat_within_cycle_witness :
    ((drawSeq idSh "b" [4, 7, 9] 0 0 true ([4, 7, 9] : List Int).length emptySState).1).Perm
      [4, 7, 9] :=
  no_repeat_within_cycle idSh (fun _ l => List.Perm.refl l) [4, 7, 9] (by decide) "b"
    emptySState (by decide) 0

end ArrSearch

namespace ArrSearch

/-! ## Claim C7: the cycle-state invariant -/

/-- The per-bucket invariant relative to the last reconciled eligible list:
no duplicates in `bag` or `seen`, disjointness, and both inside `uniq e`. -/
def CycleInvAt (s : SState) (b : String) (e : List Int) : Prop :=
  (bagOf s b).Nodup ∧ (seenOf s b).Nodup ∧ (∀ x ∈ bagOf s b, x ∉ seenOf s b) ∧
  (∀ x ∈ bagOf s b, x ∈ uniq e) ∧ (∀ x ∈ seenOf s b, x ∈ uniq e)

theorem refresh_CycleInvAt (sh : Nat → List Int → List Int)
    (hsh : ∀ k l, (sh k l).Perm l) (s : SState) (b : String) (e : List Int)
    (hbn : (bagOf s b).Nodup) (hsn : (seenOf s b).Nodup)
    (hd : ∀ x ∈ bagOf s b, x ∉ seenOf s b) :
    CycleInvAt (refresh_bucket sh s b e) b e :=
  ⟨refresh_bag_nodup sh hsh s b e hbn, refresh_seen_nodup sh s b e hsn,
   refresh_disjoint sh hsh s b e hd,
   refresh_bag_mem sh hsh s b e, refresh_seen_mem sh s b e⟩

theorem scan_CycleInvAt (b : String) (cds now : Int) (fuel : Nat) (s : SState)
    (e : List Int) (h : CycleInvAt s b e) :
    CycleInvAt (scanLoop b cds now fuel s).2 b e := by
  obtain ⟨_, _, hseen, hbag, _, _, _, _⟩ := scanLoop_spec b cds now fuel s
  obtain ⟨h1, h2, h3, h4, h5⟩ := h
  refine ⟨hbag.nodup_iff.mpr h1, hseen ▸ h2, ?_, ?_, hseen ▸ h5⟩
  · intro x hx
    rw [hseen]
    exact h3 x (hbag.mem_iff.mp hx)
  · intro x hx
    exact h4 x (hbag.mem_iff.mp hx)

theorem postPick_CycleInvAt (s2 : SState) (b : String) (c now : Int) (mark : Bool)
    (e : List Int) (h : CycleInvAt s2 b e) (t : List Int) (hct : bagOf s2 b = c :: t) :
    CycleInvAt (postPick s2 b c now mark) b e := by
  obtain ⟨h1, h2, h3, h4, h5⟩ := h
  rw [hct] at h1 h3 h4
  have hcseen : c ∉ seenOf s2 b := h3 c (by simp)
  refine ⟨?_, ?_, ?_, ?_, ?_⟩
  · rw [bagOf_postPick, hct, List.tail_cons]
    exact (List.nodup_cons.mp h1).2
  · rw [seenOf_postPick]
    refine List.Nodup.append h2 (by simp) ?_
    intro a ha hac
    rcases List.mem_singleton.mp hac with rfl
    exact hcseen ha
  · intro x hx
    rw [bagOf_postPick, hct, List.tail_cons] at hx
    rw [seenOf_postPick]
    intro hcon
    rcases List.mem_append.mp hcon with hx2 | hx2
    · exact h3 x (by simp [hx]) hx2
    · rcases List.mem_singleton.mp hx2 with rfl
      exact (List.nodup_cons.mp h1).1 hx
  · intro x hx
    rw [bagOf_postPick, hct, List.tail_cons] at hx
    exact h4 x (by simp [hx])
  · intro x hx
    rw [seenOf_postPick] at hx
    rcases List.mem_append.mp hx with hx2 | hx2
    · exact h5 x hx2
    · rcases List.mem_singleton.mp hx2 with rfl
      exact h4 x (by simp)

theorem draw_go_CycleInvAt (sh : Nat → List Int → List Int)
    (hsh : ∀ k l, (sh k l).Perm l) (b : String) (e : List Int) (cds now : Int)
    (mark : Bool) :
    ∀ (n : Nat) (s : SState) (acc : List Int), CycleInvAt s b e →
      CycleInvAt (draw_go sh b e cds now mark n s acc).2 b e := by
  intro n
  induction n with
  | zero => intro s acc h; simpa [draw_go] using h
  | succ n ih =>
    intro s acc h
    set s1 := if (bagOf s b).isEmpty then refresh_bucket sh s b e else s with hs1
    have hinv1 : CycleInvAt s1 b e := by
      rw [hs1]; split
      · exact refresh_CycleInvAt sh hsh s b e h.1 h.2.1 h.2.2.1
      · exact h
    rw [draw_go_succ_core sh b e cds now mark n s s1 acc hs1]
    by_cases hbe : (bagOf s1 b).isEmpty
    · rw [if_pos hbe]; exact hinv1
    · rw [if_neg hbe]
      have hinv2 : CycleInvAt (scanLoop b cds now (bagOf s1 b).length s1).2 b e :=
        scan_CycleInvAt b cds now (bagOf s1 b).length s1 e hinv1
      obtain ⟨_, _, _, _, _, _, _, slast⟩ := scanLoop_spec b cds now (bagOf s1 b).length s1
      rcases hscan : scanLoop b cds now (bagOf s1 b).length s1 with ⟨rc, s2⟩
      rw [hscan] at hinv2 slast
      cases rc with
      | none => simpa only [hscan] using hinv2
      | some c =>
        simp only [hscan]
        obtain ⟨t, ht⟩ := slast c rfl
        exact ih (postPick s2 b c now mark) (acc ++ [c])
          (postPick_CycleInvAt s2 b c now mark e hinv2 t ht)

theorem draw_CycleInvAt (sh : Nat → List Int → List Int)
    (hsh : ∀ k l, (sh k l).Perm l) (s : SState) (b : String) (e : List Int)
    (count cds now : Int) (mark : Bool)
    (hbn : (bagOf s b).Nodup) (hsn : (seenOf s b).Nodup)
    (hd : ∀ x ∈ bagOf s b, x ∉ seenOf s b)
    (hc : ¬(count ≤ 0)) (he : ¬(e.isEmpty = true)) :
    CycleInvAt (draw_no_repeat sh s b e count cds now mark).2 b e := by
  rw [draw_no_repeat, if_neg hc, if_neg he]
  show CycleInvAt (draw_go sh b e cds now mark count.toNat
    ((sh_bucket (refresh_bucket sh s b e) b).2) []).2 b e
  rw [sh_bucket_after_refresh]
  exact draw_go_CycleInvAt sh hsh b e cds now mark count.toNat _ []
    (refresh_CycleInvAt sh hsh s b e hbn hsn hd)

theorem draw_noop (sh : Nat → List Int → List Int) (s : SState) (b : String)
    (e : List Int) (count cds now : Int) (mark : Bool)
    (h : count ≤ 0 ∨ e.isEmpty = true) :
    draw_no_repeat sh s b e count cds now mark = ([], s) := by
  rw [draw_no_repeat]
  rcases h with h | h
  · rw [if_pos h]
  · split
    · rfl
    · rfl

theorem draw_shLookup_ne (sh : Nat → List Int → List Int) (s : SState) (b : String)
    (e : List Int) (count cds now : Int) (mark : Bool) (b0 : String) (hb0 : b0 ≠ b) :
    shLookup (draw_no_repeat sh s b e count cds now mark).2 b0 = shLookup s b0 := by
  rw [draw_no_repeat]
  split
  · rfl
  · split
    · rfl
    · show shLookup (draw_go sh b e cds now mark count.toNat
        ((sh_bucket (refresh_bucket sh s b e) b).2) []).2 b0 = _
      rw [sh_bucket_after_refresh]
      obtain ⟨hfr, _, _, _, _⟩ :=
        draw_go_frame sh b e cds now mark count.toNat (refresh_bucket sh s b e) []
      rw [hfr b0 hb0, refresh_shLookup_ne sh s b b0 e hb0]

end ArrSearch

namespace ArrSearch

/-- The bag/seen discipline that holds of every bucket of a reachable state. -/
def BInvAll (s : SState) : Prop :=
  ∀ b, (bagOf s b).Nodup ∧ (seenOf s b).Nodup ∧ ∀ x ∈ bagOf s b, x ∉ seenOf s b

theorem bagOf_of_shLookup_eq (s1 s : SState) (b : String)
    (h : shLookup s1 b = shLookup s b) : bagOf s1 b = bagOf s b := by
  rw [bagOf, bagOf, h]

theorem seenOf_of_shLookup_eq (s1 s : SState) (b : String)
    (h : shLookup s1 b = shLookup s b) : seenOf s1 b = seenOf s b := by
  rw [seenOf, seenOf, h]

theorem mark_shLookup (s : SState) (b : String) (i now : Int) (b0 : String) :
    shLookup (mark_searched s b i now) b0 = shLookup s b0 := by
  rw [shLookup, shLookup, mark_shuffle]

theorem applyOp_BInv (sh : Nat → List Int → List Int)
    (hsh : ∀ k l, (sh k l).Perm l) (s : SState) (op : Op) (h : BInvAll s) :
    BInvAll (applyOp sh s op) := by
  cases op with
  | reconcile b1 e =>
    intro b
    by_cases hb : b = b1
    · subst hb
      obtain ⟨h1, h2, h3, _, _⟩ := refresh_CycleInvAt sh hsh s b e (h b).1 (h b).2.1 (h b).2.2
      exact ⟨h1, h2, h3⟩
    · have hpres : shLookup (applyOp sh s (.reconcile b1 e)) b = shLookup s b :=
        refresh_shLookup_ne sh s b1 b e hb
      rw [show applyOp sh s (.reconcile b1 e) = refresh_bucket sh s b1 e from rfl] at hpres ⊢
      rw [bagOf_of_shLookup_eq _ _ _ hpres, seenOf_of_shLookup_eq _ _ _ hpres]
      exact h b
  | draw b1 e c cds now m =>
    by_cases hc : c ≤ 0
    · have hnoop := draw_noop sh s b1 e c cds now m (Or.inl hc)
      show BInvAll (draw_no_repeat sh s b1 e c cds now m).2
      rw [hnoop]
      exact h
    · by_cases he : e.isEmpty = true
      · have hnoop := draw_noop sh s b1 e c cds now m (Or.inr he)
        show BInvAll (draw_no_repeat sh s b1 e c cds now m).2
        rw [hnoop]
        exact h
      · intro b
        by_cases hb : b = b1
        · subst hb
          obtain ⟨h1, h2, h3, _, _⟩ := draw_CycleInvAt sh hsh s b e c cds now m
            (h b).1 (h b).2.1 (h b).2.2 hc he
          exact ⟨h1, h2, h3⟩
        · have hpres : shLookup (draw_no_repeat sh s b1 e c cds now m).2 b = shLookup s b :=
            draw_shLookup_ne sh s b1 e c cds now m b hb
          have happ : applyOp sh s (Op.draw b1 e c cds now m) =
              (draw_no_repeat sh s b1 e c cds now m).2 := rfl
          rw [happ, bagOf_of_shLookup_eq _ _ _ hpres, seenOf_of_shLookup_eq _ _ _ hpres]
          exact h b
  | markSel b1 i now =>
    intro b
    have hpres : shLookup (mark_searched s b1 i now) b = shLookup s b := mark_shLookup s b1 i now b
    have happ : applyOp sh s (Op.markSel b1 i now) = mark_searched s b1 i now := rfl
    rw [happ, bagOf_of_shLookup_eq _ _ _ hpres, seenOf_of_shLookup_eq _ _ _ hpres]
    exact h b

theorem applyOp_sh_pres (sh : Nat → List Int → List Int) (s : SState) (op : Op) (b0 : String)
    (h : refreshesBucket b0 op = false) :
    shLookup (applyOp sh s op) b0 = shLookup s b0 := by
  cases op with
  | reconcile b1 e =>
    have hb : b1 ≠ b0 := by
      intro hcon
      simp [refreshesBucket, hcon] at h
    exact refresh_shLookup_ne sh s b1 b0 e hb.symm
  | draw b1 e c cds now m =>
    by_cases hb : b1 = b0
    · by_cases hc : 0 < c
      · by_cases he : e.isEmpty = true
        · show shLookup (draw_no_repeat sh s b1 e c cds now m).2 b0 = _
          rw [draw_noop sh s b1 e c cds now m (Or.inr he)]
        · simp [refreshesBucket, hb, hc, he] at h
      · show shLookup (draw_no_repeat sh s b1 e c cds now m).2 b0 = _
        rw [draw_noop sh s b1 e c cds now m (Or.inl (by omega))]
    · exact draw_shLookup_ne sh s b1 e c cds now m b0 (fun hcon => hb hcon.symm)
  | markSel b1 i now => exact mark_shLookup s b1 i now b0

theorem applyOp_subsets (sh : Nat → List Int → List Int)
    (hsh : ∀ k l, (sh k l).Perm l) (s : SState) (op : Op) (b0 : String) (hBI : BInvAll s)
    (h : refreshesBucket b0 op = true) :
    (∀ x ∈ bagOf (applyOp sh s op) b0, x ∈ uniq (eligOf op)) ∧
    (∀ x ∈ seenOf (applyOp sh s op) b0, x ∈ uniq (eligOf op)) := by
  cases op with
  | reconcile b1 e =>
    have hb : b1 = b0 := by simpa [refreshesBucket] using h
    subst hb
    exact ⟨refresh_bag_mem sh hsh s b1 e, refresh_seen_mem sh s b1 e⟩
  | draw b1 e c cds now m =>
    simp only [refreshesBucket, Bool.and_eq_true, decide_eq_true_eq,
      Bool.not_eq_true'] at h
    obtain ⟨⟨hb, hc⟩, he⟩ := h
    subst hb
    obtain ⟨_, _, _, h4, h5⟩ := draw_CycleInvAt sh hsh s b1 e c cds now m
      (hBI b1).1 (hBI b1).2.1 (hBI b1).2.2 (by omega) (by simp [he])
    exact ⟨h4, h5⟩
  | markSel b1 i now => simp [refreshesBucket] at h

/-- Master induction: any operation sequence from a disciplined state keeps
every bucket's bag and seen duplicate-free and disjoint; buckets not
reconciled by the sequence keep their cycle record; and a bucket's bag and
seen stay inside the eligible list of its last reconciliation. -/
theorem runOps_master (sh : Nat → List Int → List Int)
    (hsh : ∀ k l, (sh k l).Perm l) :
    ∀ (ops : List Op) (s : SState), BInvAll s →
      BInvAll (runOps sh ops s) ∧
      (∀ b, lastElig b ops = none → shLookup (runOps sh ops s) b = shLookup s b) ∧
      (∀ b e, lastElig b ops = some e →
        (∀ x ∈ bagOf (runOps sh ops s) b, x ∈ uniq e) ∧
        (∀ x ∈ seenOf (runOps sh ops s) b, x ∈ uniq e)) := by
  intro ops
  induction ops with
  | nil =>
    intro s h
    exact ⟨h, fun b _ => rfl, fun b e hcon => by simp [lastElig] at hcon⟩
  | cons op t ih =>
    intro s hBI
    have hBI1 : BInvAll (applyOp sh s op) := applyOp_BInv sh hsh s op hBI
    obtain ⟨ih1, ih2, ih3⟩ := ih (applyOp sh s op) hBI1
    refine ⟨ih1, ?_, ?_⟩
    · intro b hle
      rw [lastElig] at hle
      rcases hlt : lastElig b t with _ | e2
      · rw [hlt] at hle
        have hrf : refreshesBucket b op = false := by
          rcases hcase : refreshesBucket b op with _ | _
          · rfl
          · rw [hcase] at hle; simp at hle
        show shLookup (runOps sh t (applyOp sh s op)) b = shLookup s b
        rw [ih2 b hlt, applyOp_sh_pres sh s op b hrf]
      · rw [hlt] at hle; simp at hle
    · intro b e hle
      rw [lastElig] at hle
      rcases hlt : lastElig b t with _ | e2
      · rw [hlt] at hle
        have hrf : refreshesBucket b op = true := by
          rcases hcase : refreshesBucket b op with _ | _
          · rw [hcase] at hle; simp at hle
          · rfl
        rw [hrf, if_pos rfl, Option.some_inj] at hle
        subst hle
        have hpres : shLookup (runOps sh t (applyOp sh s op)) b =
            shLookup (applyOp sh s op) b := ih2 b hlt
        obtain ⟨hb, hs2⟩ := applyOp_subsets sh hsh s op b hBI hrf
        have hrun : runOps sh (op :: t) s = runOps sh t (applyOp sh s op) := rfl
        rw [hrun, bagOf_of_shLookup_eq _ _ _ hpres, seenOf_of_shLookup_eq _ _ _ hpres]
        exact ⟨hb, hs2⟩
      · rw [hlt] at hle
        rw [Option.some_inj] at hle
        subst hle
        exact ih3 b e2 hlt

/-- C7: after any sequence of reconcile/draw/mark operations from the empty
store, every bucket's bag and seen list are duplicate-free and disjoint, and
both are contained in the eligible list most recently reconciled against. -/
theorem cycle_state_invariant (sh : Nat → List Int → List Int)
    (hsh : ∀ k l, (sh k l).Perm l) (ops : List Op) (bucket : String) :
    (bagOf (runOps sh ops emptySState) bucket).Nodup ∧
    (seenOf (runOps sh ops emptySState) bucket).Nodup ∧
    (∀ x ∈ bagOf (runOps sh ops emptySState) bucket,
      x ∉ seenOf (runOps sh ops emptySState) bucket) ∧
    (∀ e, lastElig bucket ops = some e →
      (∀ x ∈ bagOf (runOps sh ops emptySState) bucket, x ∈ e) ∧
      (∀ x ∈ seenOf (runOps sh ops emptySState) bucket, x ∈ e)) := by
  have hempty : BInvAll emptySState := by
    intro b
    refine ⟨?_, ?_, ?_⟩ <;> simp [bagOf, seenOf, shLookup, emptySState, alookup]
  obtain ⟨h1, _, h3⟩ := runOps_master sh hsh ops emptySState hempty
  refine ⟨(h1 bucket).1, (h1 bucket).2.1, (h1 bucket).2.2, ?_⟩
  intro e hle
  obtain ⟨hb, hs2⟩ := h3 bucket e hle
  exact ⟨fun x hx => (mem_uniq x e).mp (hb x hx),
    fun x hx => (mem_uniq x e).mp (hs2 x hx)⟩

/-- Concrete instance of C7 after a reconcile, a draw and a mark on the
empty store. -/
theorem cycle_state_invariant_witness :
    (bagOf (runOps idSh [Op.reconcile "b" [1, 2, 3], Op.draw "b" [1, 2] 1 0 0 true,
        Op.markSel "c" 5 9] emptySState) "b").Nodup ∧
    (seenOf (runOps idSh [Op.reconcile "b" [1, 2, 3], Op.draw "b" [1, 2] 1 0 0 true,
        Op.markSel "c" 5 9] emptySState) "b").Nodup ∧
    1 ∈ seenOf (runOps idSh [Op.reconcile "b" [1, 2, 3], Op.draw "b" [1, 2] 1 0 0 true,
        Op.markSel "c" 5 9] emptySState) "b" :=
  ⟨(cycle_state_invariant idSh (fun _ l => List.Perm.refl l)
      [Op.reconcile "b" [1, 2, 3], Op.draw "b" [1, 2] 1 0 0 true,
        Op.markSel "c" 5 9] "b").1,
   (cycle_state_invariant idSh (fun _ l => List.Perm.refl l)
      [Op.reconcile "b" [1, 2, 3], Op.draw "b" [1, 2] 1 0 0 true,
        Op.markSel "c" 5 9] "b").2.1,
   by decide⟩

end ArrSearch

namespace ArrSearch

/-! ## Codec lemmas: `json.load` is the identity on unique-key documents -/

theorem asetJ_append (kvs : List (String × JVal)) (k : String) (v : JVal)
    (h : ∀ p ∈ kvs, p.1 ≠ k) : asetJ kvs k v = kvs ++ [(k, v)] := by
  induction kvs with
  | nil => rfl
  | cons hd t ih =>
    obtain ⟨k1, v1⟩ := hd
    have hk : k ≠ k1 := fun hcon => h (k1, v1) (by simp) hcon.symm
    simp only [asetJ, if_neg hk, List.cons_append, List.cons.injEq, true_and]
    exact ih (fun p hp => h p (by simp [hp]))

theorem pyDict_aux (kvs acc : List (String × JVal))
    (h : ((acc ++ kvs).map Prod.fst).Nodup) :
    kvs.foldl (fun a kv => asetJ a kv.1 kv.2) acc = acc ++ kvs := by
  induction kvs generalizing acc with
  | nil => simp
  | cons hd t ih =>
    obtain ⟨k, v⟩ := hd
    have hfresh : ∀ p ∈ acc, p.1 ≠ k := by
      intro p hp hcon
      rw [List.map_append, List.nodup_append] at h
      exact h.2.2 (List.mem_map_of_mem Prod.fst hp) (by simp [hcon])
    have hstep : asetJ acc k v = acc ++ [(k, v)] := asetJ_append acc k v hfresh
    show List.foldl (fun a kv => asetJ a kv.1 kv.2) (asetJ acc k v) t = acc ++ (k, v) :: t
    rw [hstep, ih (acc ++ [(k, v)]) (by simpa using h)]
    simp

theorem pyDict_self (kvs : List (String × JVal)) (h : (kvs.map Prod.fst).Nodup) :
    pyDict kvs = kvs := by
  have := pyDict_aux kvs [] (by simpa using h)
  simpa [pyDict] using this

theorem canon_num (n : Int) : canon (.jnum n) = .jnum n := by rw [canon]

theorem canonList_num (l : List Int) :
    canonList (l.map JVal.jnum) = l.map JVal.jnum := by
  induction l with
  | nil => rfl
  | cons x t ih => simp only [List.map_cons, canonList, canon_num, ih]

theorem canonKVs_fixed (kvs : List (String × JVal)) (h : ∀ p ∈ kvs, canon p.2 = p.2) :
    canonKVs kvs = kvs := by
  induction kvs with
  | nil => rfl
  | cons hd t ih =>
    obtain ⟨k, v⟩ := hd
    simp only [canonKVs, h (k, v) (by simp), ih (fun p hp => h p (by simp [hp]))]

/-- `canon` fixes a two-level cooldown object with unique keys and integer
timestamps. -/
theorem canon_cd_obj (cds : List (String × List (String × Int)))
    (hkeys : (cds.map Prod.fst).Nodup) (hinner : ∀ bm ∈ cds, (bm.2.map Prod.fst).Nodup) :
    canon (.jobj (cds.map (fun bm =>
      (bm.1, JVal.jobj (bm.2.map (fun p => (p.1, JVal.jnum p.2))))))) =
    .jobj (cds.map (fun bm =>
      (bm.1, JVal.jobj (bm.2.map (fun p => (p.1, JVal.jnum p.2)))))) := by
  rw [canon]
  rw [canonKVs_fixed]
  · rw [pyDict_self]
    simpa using hkeys
  · intro p hp
    rw [List.mem_map] at hp
    obtain ⟨bm, hbm, hpe⟩ := hp
    rw [← hpe]
    show canon (.jobj (bm.2.map (fun p => (p.1, JVal.jnum p.2)))) = _
    rw [canon, canonKVs_fixed, pyDict_self]
    · simpa using hinner bm hbm
    · intro q hq
      rw [List.mem_map] at hq
      obtain ⟨ts, _, hte⟩ := hq
      rw [← hte]
      exact canon_num ts.2

theorem normCDInner_num (m : List (String × Int)) :
    normCDInner (m.map (fun p => (p.1, JVal.jnum p.2))) = .ok m := by
  induction m with
  | nil => rfl
  | cons hd t ih =>
    obtain ⟨i, ts⟩ := hd
    simp only [List.map_cons, normCDInner, pyInt]
    rw [ih]
    rfl

theorem normCDOuter_num (cds : List (String × List (String × Int))) :
    normCDOuter (cds.map (fun bm =>
      (bm.1, JVal.jobj (bm.2.map (fun p => (p.1, JVal.jnum p.2)))))) = .ok cds := by
  induction cds with
  | nil => rfl
  | cons hd t ih =>
    obtain ⟨b, m⟩ := hd
    simp only [List.map_cons, normCDOuter]
    rw [normCDInner_num, ih]
    rfl

theorem normList_num (l : List Int) : normList (l.map JVal.jnum) = .ok l := by
  induction l with
  | nil => rfl
  | cons x t ih =>
    simp only [List.map_cons, normList, bagEntryNum]
    rw [ih]
    rfl

theorem alookupJ_eq_none (kvs : List (String × JVal)) (k : String)
    (h : ∀ p ∈ kvs, p.1 ≠ k) : alookupJ kvs k = none := by
  induction kvs with
  | nil => rfl
  | cons hd t ih =>
    obtain ⟨k1, v1⟩ := hd
    have hk : k ≠ k1 := fun hcon => h (k1, v1) (by simp) hcon.symm
    simp only [alookupJ, if_neg hk]
    exact ih (fun p hp => h p (by simp [hp]))

theorem alookup_of_mem_nodup {β : Type} (l : List (String × β)) (k : String) (v : β)
    (hn : (l.map Prod.fst).Nodup) (hm : (k, v) ∈ l) : alookup l k = some v := by
  induction l with
  | nil => simp at hm
  | cons hd t ih =>
    obtain ⟨k1, v1⟩ := hd
    simp only [List.map_cons, List.nodup_cons] at hn
    rcases List.mem_cons.mp hm with h1 | h1
    · obtain ⟨rfl, rfl⟩ := Prod.mk.injEq .. ▸ h1
      · simp [alookup]
    · have hk : k ≠ k1 := by
        intro hcon
        subst hcon
        exact hn.1 (List.mem_map_of_mem Prod.fst h1)
      simp only [alookup, if_neg hk]
      exact ih hn.2 h1

end ArrSearch

namespace ArrSearch

/-! ## Loading a canonically saved document -/

theorem normBucket_saved (bag seen : List Int) (hb : bag.Nodup) (hs : seen.Nodup) :
    normBucket (.jobj [("bag", .jarr (bag.map JVal.jnum)),
      ("seen", .jarr (seen.map JVal.jnum))]) = .ok ⟨bag, seen⟩ := by
  have h1 : alookupJ [("bag", JVal.jarr (bag.map JVal.jnum)),
      ("seen", JVal.jarr (seen.map JVal.jnum))] "bag" = some (.jarr (bag.map JVal.jnum)) := by
    simp [alookupJ]
  have h2 : alookupJ [("bag", JVal.jarr (bag.map JVal.jnum)),
      ("seen", JVal.jarr (seen.map JVal.jnum))] "seen" = some (.jarr (seen.map JVal.jnum)) := by
    rw [alookupJ, if_neg (by decide), alookupJ, if_pos rfl]
  rw [normBucket, h1, h2]
  simp only [Option.getD_some, pyIterInts]
  rw [normList_num, normList_num]
  show (Except.ok (⟨uniq bag, uniq seen⟩ : ShBucket) : Except Unit ShBucket) = _
  rw [uniq_eq_self bag hb, uniq_eq_self seen hs]

theorem normShAux_saved (shf : List (String × ShBucket))
    (hwf : ∀ bs ∈ shf, bs.2.bag.Nodup ∧ bs.2.seen.Nodup) :
    normShAux (shf.map (fun bs => (bs.1, JVal.jobj
      [("bag", .jarr (bs.2.bag.map JVal.jnum)),
       ("seen", .jarr (bs.2.seen.map JVal.jnum))]))) = .ok shf := by
  induction shf with
  | nil => rfl
  | cons hd t ih =>
    obtain ⟨b, sb⟩ := hd
    obtain ⟨hb, hs⟩ := hwf (b, sb) (by simp)
    simp only [List.map_cons, normShAux]
    rw [normBucket_saved sb.bag sb.seen hb hs, ih (fun bs hbs => hwf bs (by simp [hbs]))]
    rfl

theorem canon_sh_obj (shf : List (String × ShBucket)) (hkeys : (shf.map Prod.fst).Nodup) :
    canon (.jobj (shf.map (fun bs => (bs.1, JVal.jobj
      [("bag", .jarr (bs.2.bag.map JVal.jnum)),
       ("seen", .jarr (bs.2.seen.map JVal.jnum))])))) =
    .jobj (shf.map (fun bs => (bs.1, JVal.jobj
      [("bag", .jarr (bs.2.bag.map JVal.jnum)),
       ("seen", .jarr (bs.2.seen.map JVal.jnum))]))) := by
  rw [canon, canonKVs_fixed]
  · rw [pyDict_self]
    simpa using hkeys
  · intro p hp
    rw [List.mem_map] at hp
    obtain ⟨bs, _, hpe⟩ := hp
    rw [← hpe]
    show canon (.jobj [("bag", JVal.jarr (bs.2.bag.map JVal.jnum)),
      ("seen", JVal.jarr (bs.2.seen.map JVal.jnum))]) = _
    rw [canon, canonKVs_fixed, pyDict_self]
    · simp
    · intro q hq
      rcases List.mem_cons.mp hq with h1 | h1
      · rw [h1]
        show canon (.jarr (bs.2.bag.map JVal.jnum)) = _
        rw [canon, canonList_num]
      · rcases List.mem_singleton.mp h1 with rfl
        show canon (.jarr (bs.2.seen.map JVal.jnum)) = _
        rw [canon, canonList_num]

theorem canon_saveJ (s : SState) (hcd : CdWF s) (hshk : ShKeysWF s) :
    canon (saveJ s) = saveJ s := by
  show canon (.jobj [("cooldowns", .jobj (s.cooldowns.map (fun bm =>
      (bm.1, JVal.jobj (bm.2.map (fun p => (p.1, JVal.jnum p.2))))))),
    ("shuffle", .jobj (s.shuffle.map (fun bs =>
      (bs.1, JVal.jobj [("bag", JVal.jarr (bs.2.bag.map JVal.jnum)),
        ("seen", JVal.jarr (bs.2.seen.map JVal.jnum))]))))]) = _
  rw [canon, canonKVs_fixed]
  · rw [pyDict_self]
    · rfl
    · exact (by decide : (["cooldowns", "shuffle"] : List String).Nodup)
  · intro q hq
    rcases List.mem_cons.mp hq with h1 | h1
    · rw [h1]
      exact canon_cd_obj s.cooldowns hcd.1 hcd.2
    · rcases List.mem_singleton.mp h1 with rfl
      exact canon_sh_obj s.shuffle hshk

theorem loadContent_canonical (ckvs skvs : List (String × JVal)) :
    loadContent (.jobj [("cooldowns", .jobj ckvs), ("shuffle", .jobj skvs)]) =
      (do
        let cds ← normCDOuter ckvs
        let shf ← normShAux skvs
        Except.ok (⟨cds, shf, 0⟩ : SState)) := rfl

theorem loadState_saveJ (s : SState) (hcd : CdWF s) (hshk : ShKeysWF s)
    (hwf : ∀ bs ∈ s.shuffle, bs.2.bag.Nodup ∧ bs.2.seen.Nodup) :
    loadState (.content (saveJ s)) = (⟨s.cooldowns, s.shuffle, 0⟩, false) := by
  have hload : loadContent (canon (saveJ s)) = .ok ⟨s.cooldowns, s.shuffle, 0⟩ := by
    rw [canon_saveJ s hcd hshk]
    rw [show saveJ s = .jobj [("cooldowns", .jobj (s.cooldowns.map (fun bm =>
        (bm.1, JVal.jobj (bm.2.map (fun p => (p.1, JVal.jnum p.2))))))),
      ("shuffle", .jobj (s.shuffle.map (fun bs =>
        (bs.1, JVal.jobj [("bag", JVal.jarr (bs.2.bag.map JVal.jnum)),
          ("seen", JVal.jarr (bs.2.seen.map JVal.jnum))]))))] from rfl]
    rw [loadContent_canonical, normCDOuter_num, normShAux_saved s.shuffle hwf]
    rfl
  rw [loadState, hload]

end ArrSearch

namespace ArrSearch

/-! ## Key well-formedness of reachable states, and the round trip -/

theorem draw_CdWF (sh : Nat → List Int → List Int) (s : SState) (b : String)
    (e : List Int) (count cds now : Int) (mark : Bool) (h : CdWF s) :
    CdWF (draw_no_repeat sh s b e count cds now mark).2 := by
  rw [draw_no_repeat]
  split
  · exact h
  · split
    · exact h
    · show CdWF (draw_go sh b e cds now mark count.toNat
        ((sh_bucket (refresh_bucket sh s b e) b).2) []).2
      rw [sh_bucket_after_refresh]
      obtain ⟨_, _, _, hwf, _⟩ :=
        draw_go_frame sh b e cds now mark count.toNat (refresh_bucket sh s b e) []
      exact hwf (refresh_CdWF sh s b e h)

theorem draw_ShKeysWF (sh : Nat → List Int → List Int) (s : SState) (b : String)
    (e : List Int) (count cds now : Int) (mark : Bool) (h : ShKeysWF s) :
    ShKeysWF (draw_no_repeat sh s b e count cds now mark).2 := by
  rw [draw_no_repeat]
  split
  · exact h
  · split
    · exact h
    · show ShKeysWF (draw_go sh b e cds now mark count.toNat
        ((sh_bucket (refresh_bucket sh s b e) b).2) []).2
      rw [sh_bucket_after_refresh]
      obtain ⟨_, _, _, _, hwf⟩ :=
        draw_go_frame sh b e cds now mark count.toNat (refresh_bucket sh s b e) []
      exact hwf (refresh_ShKeysWF sh s b e h)

theorem applyOp_CdWF (sh : Nat → List Int → List Int) (s : SState) (op : Op)
    (h : CdWF s) : CdWF (applyOp sh s op) := by
  cases op with
  | reconcile b1 e => exact refresh_CdWF sh s b1 e h
  | draw b1 e c cds now m => exact draw_CdWF sh s b1 e c cds now m h
  | markSel b1 i now => exact mark_CdWF s b1 i now h

theorem applyOp_ShKeysWF (sh : Nat → List Int → List Int) (s : SState) (op : Op)
    (h : ShKeysWF s) : ShKeysWF (applyOp sh s op) := by
  cases op with
  | reconcile b1 e => exact refresh_ShKeysWF sh s b1 e h
  | draw b1 e c cds now m => exact draw_ShKeysWF sh s b1 e c cds now m h
  | markSel b1 i now => exact mark_ShKeysWF s b1 i now h

theorem runOps_wf (sh : Nat → List Int → List Int) (hsh : ∀ k l, (sh k l).Perm l) :
    ∀ (ops : List Op) (s : SState), CdWF s → ShKeysWF s → BInvAll s →
      CdWF (runOps sh ops s) ∧ ShKeysWF (runOps sh ops s) ∧ BInvAll (runOps sh ops s) := by
  intro ops
  induction ops with
  | nil => intro s h1 h2 h3; exact ⟨h1, h2, h3⟩
  | cons op t ih =>
    intro s h1 h2 h3
    exact ih (applyOp sh s op) (applyOp_CdWF sh s op h1)
      (applyOp_ShKeysWF sh s op h2) (applyOp_BInv sh hsh s op h3)

theorem emptySState_wf : CdWF emptySState ∧ ShKeysWF emptySState ∧ BInvAll emptySState := by
  refine ⟨⟨by simp [emptySState], by simp [emptySState]⟩, by simp [ShKeysWF, emptySState], ?_⟩
  intro b
  refine ⟨?_, ?_, ?_⟩ <;> simp [bagOf, seenOf, shLookup, emptySState, alookup]

theorem shuffle_entries_nodup (s : SState) (hshk : ShKeysWF s) (hBI : BInvAll s) :
    ∀ bs ∈ s.shuffle, bs.2.bag.Nodup ∧ bs.2.seen.Nodup := by
  intro bs hbs
  have hl : alookup s.shuffle bs.1 = some bs.2 :=
    alookup_of_mem_nodup s.shuffle bs.1 bs.2 hshk hbs
  have hb : bagOf s bs.1 = bs.2.bag := by simp [bagOf, shLookup, hl]
  have hs2 : seenOf s bs.1 = bs.2.seen := by simp [seenOf, shLookup, hl]
  exact ⟨hb ▸ (hBI bs.1).1, hs2 ▸ (hBI bs.1).2.1⟩

/-- C3: for every state reachable from the empty store through the documented
operations (reconcile, draw, markSelected), saving and reloading reproduces
the state exactly — the same cooldown timestamp for every bucket and id, and
the same bag contents (in order) and seen list for every bucket. -/
theorem persistence_round_trip (sh : Nat → List Int → List Int)
    (hsh : ∀ k l, (sh k l).Perm l) (ops : List Op) :
    loadState (.content (saveJ (runOps sh ops emptySState))) =
      (⟨(runOps sh ops emptySState).cooldowns, (runOps sh ops emptySState).shuffle, 0⟩,
        false) ∧
    (∀ b i, cdLookup (loadState (.content (saveJ (runOps sh ops emptySState)))).1 b i =
      cdLookup (runOps sh ops emptySState) b i) ∧
    (∀ b, bagOf (loadState (.content (saveJ (runOps sh ops emptySState)))).1 b =
        bagOf (runOps sh ops emptySState) b ∧
      seenOf (loadState (.content (saveJ (runOps sh ops emptySState)))).1 b =
        seenOf (runOps sh ops emptySState) b) := by
  obtain ⟨he1, he2, he3⟩ := emptySState_wf
  obtain ⟨h1, h2, h3⟩ := runOps_wf sh hsh ops emptySState he1 he2 he3
  have hmain := loadState_saveJ (runOps sh ops emptySState) h1 h2
    (shuffle_entries_nodup (runOps sh ops emptySState) h2 h3)
  refine ⟨hmain, ?_, ?_⟩
  · intro b i
    rw [hmain]
    rfl
  · intro b
    rw [hmain]
    exact ⟨rfl, rfl⟩

/-- Concrete instance of C3: a committed draw's state round-trips through
save and load. -/
theorem persistence_round_trip_witness :
    loadState (.content (saveJ (runOps idSh [Op.draw "b" [1, 2] 1 5 7 true]
        emptySState))) =
      (⟨(runOps idSh [Op.draw "b" [1, 2] 1 5 7 true] emptySState).cooldowns,
        (runOps idSh [Op.draw "b" [1, 2] 1 5 7 true] emptySState).shuffle, 0⟩, false) ∧
    bagOf (loadState (.content (saveJ (runOps idSh [Op.draw "b" [1, 2] 1 5 7 true]
        emptySState)))).1 "b" =
      bagOf (runOps idSh [Op.draw "b" [1, 2] 1 5 7 true] emptySState) "b" :=
  ⟨(persistence_round_trip idSh (fun _ l => List.Perm.refl l)
      [Op.draw "b" [1, 2] 1 5 7 true]).1,
   ((persistence_round_trip idSh (fun _ l => List.Perm.refl l)
      [Op.draw "b" [1, 2] 1 5 7 true]).2.2 "b").1⟩

end ArrSearch

namespace ArrSearch

/-! ## Claim C5: load tolerance -/

/-- C5 counterexample: in the document
`{"cooldowns": {"b": {"1": "x", "2": 5}}}` the entry `"2": 5` is well formed,
but the malformed timestamp `"x"` raises inside `int(ts)` and the whole load
falls back to the empty state (with a warning): the well-formed entry of the
same document is not kept. -/
theorem load_drops_wellformed_entry :
    loadState (.content (.jobj [("cooldowns",
        .jobj [("b", .jobj [("1", .jstr "x"), ("2", .jnum 5)])])])) =
      (emptySState, true) ∧
    cdLookup (loadState (.content (.jobj [("cooldowns",
        .jobj [("b", .jobj [("1", .jstr "x"), ("2", .jnum 5)])])]))).1 "b" 2 = none := by
  constructor
  · rfl
  · rfl

theorem loadContent_legacy (kvs : List (String × JVal)) (hne : kvs ≠ [])
    (hc : alookupJ kvs "cooldowns" = none) (hs : alookupJ kvs "shuffle" = none) :
    loadContent (.jobj kvs) =
      (do
        let cds ← normCDOuter kvs
        Except.ok (⟨cds, [], 0⟩ : SState)) := by
  have htr : truthy (.jobj kvs) = true := by simp [truthy, hne]
  simp [loadContent, htr, hc, hs]
  rfl

/-- C5 amended: `_load` never fails fatally.  An absent file is skipped
silently (no warning) and an unreadable or unparseable file yields the empty
state plus a warning; every parsed document either loads, or yields the empty
state plus a warning.  A flat legacy bucket-to-(id-to-timestamp) document
(without `cooldowns`/`shuffle` keys) loads populating only the cooldown
ledger, with an empty cycle bag for every bucket.  Within a bag or seen list,
entries failing the digit guard are silently dropped and the well-formed ones
kept, and duplicates are collapsed preserving first occurrence — but a
conversion error (a non-integer cooldown timestamp, or a guard-passing entry
such as a double-dashed numeral) aborts the whole load to the empty state
with a warning. -/
theorem load_tolerance :
    loadState .absent = (emptySState, false) ∧
    loadState .unreadable = (emptySState, true) ∧
    (∀ v, loadState (.content v) = (emptySState, true) ∨
      ∃ st, loadContent (canon v) = .ok st ∧ loadState (.content v) = (st, false)) ∧
    (∀ cds : List (String × List (String × Int)),
      (cds.map Prod.fst).Nodup → (∀ bm ∈ cds, (bm.2.map Prod.fst).Nodup) →
      (∀ bm ∈ cds, bm.1 ≠ "cooldowns" ∧ bm.1 ≠ "shuffle") →
      loadState (.content (.jobj (cds.map (fun bm =>
          (bm.1, JVal.jobj (bm.2.map (fun p => (p.1, JVal.jnum p.2)))))))) =
        (⟨cds, [], 0⟩, false) ∧
      ∀ b, bagOf (⟨cds, [], 0⟩ : SState) b = []) ∧
    (∀ xs : List JVal, (∀ x ∈ xs, bagEntryNum x ≠ some (.error ())) →
      normList xs = .ok (xs.filterMap (fun x =>
        match bagEntryNum x with
        | some (.ok n) => some n
        | _ => none))) ∧
    (∀ l : List Int, (uniq l).Nodup ∧ (uniq l).Sublist l ∧ ∀ x, x ∈ uniq l ↔ x ∈ l) := by
  refine ⟨rfl, rfl, ?_, ?_, ?_, ?_⟩
  · intro v
    rcases hres : loadContent (canon v) with _ | st
    · left
      simp [loadState, hres]
    · right
      exact ⟨st, rfl, by simp [loadState, hres]⟩
  · intro cds hk hik hnc
    refine ⟨?_, fun b => by simp [bagOf, shLookup, alookup]⟩
    by_cases hnil : cds = []
    · subst hnil
      rfl
    · have hcanon := canon_cd_obj cds hk hik
      have hmapne : cds.map (fun bm =>
          (bm.1, JVal.jobj (bm.2.map (fun p => (p.1, JVal.jnum p.2))))) ≠ [] := by
        simpa using hnil
      have hlc : alookupJ (cds.map (fun bm =>
          (bm.1, JVal.jobj (bm.2.map (fun p => (p.1, JVal.jnum p.2)))))) "cooldowns" = none := by
        refine alookupJ_eq_none _ _ (fun p hp => ?_)
        rw [List.mem_map] at hp
        obtain ⟨bm, hbm, hpe⟩ := hp
        rw [← hpe]
        exact (hnc bm hbm).1
      have hls : alookupJ (cds.map (fun bm =>
          (bm.1, JVal.jobj (bm.2.map (fun p => (p.1, JVal.jnum p.2)))))) "shuffle" = none := by
        refine alookupJ_eq_none _ _ (fun p hp => ?_)
        rw [List.mem_map] at hp
        obtain ⟨bm, hbm, hpe⟩ := hp
        rw [← hpe]
        exact (hnc bm hbm).2
      rw [loadState, hcanon, loadContent_legacy _ hmapne hlc hls, normCDOuter_num]
      rfl
  · intro xs h
    induction xs with
    | nil => rfl
    | cons x t ih =>
      rcases hx : bagEntryNum x with _ | r
      · rw [normList, hx, ih (fun y hy => h y (by simp [hy]))]
        simp [List.filterMap_cons, hx]
      · rcases r with _ | n
        · exact absurd hx (h x (by simp))
        · rw [normList, hx, ih (fun y hy => h y (by simp [hy]))]
          simp only [List.filterMap_cons, hx]
          rfl
  · intro l
    exact ⟨nodup_uniq l, uniq_sublist l, fun x => mem_uniq x l⟩

/-- Concrete instances of the amended C5 facts: a legacy flat document loads
into the cooldown ledger with empty bags, and a mixed bag list keeps exactly
its well-formed entries. -/
theorem load_tolerance_witness :
    loadState (.content (.jobj [("movies", .jobj [("7", .jnum 99)])])) =
      (⟨[("movies", [("7", 99)])], [], 0⟩, false) ∧
    normList [JVal.jnum 3, JVal.jstr "4", JVal.jstr "zz", JVal.jbool true] =
      .ok [3, 4] :=
  ⟨(load_tolerance.2.2.2.1 [("movies", [("7", 99)])] (by decide)
      (by intro bm hbm; rcases List.mem_singleton.mp hbm with rfl; decide)
      (by intro bm hbm; rcases List.mem_singleton.mp hbm with rfl; exact ⟨by decide, by decide⟩)).1,
   by
     rw [load_tolerance.2.2.2.2.1 [JVal.jnum 3, JVal.jstr "4", JVal.jstr "zz", JVal.jbool true]
       (by
         intro x hx
         fin_cases hx
         · rw [show bagEntryNum (JVal.jnum 3) = some (Except.ok 3) from rfl]
           simp
         · rw [show bagEntryNum (JVal.jstr "4") = some (Except.ok 4) from rfl]
           simp
         · rw [show bagEntryNum (JVal.jstr "zz") = none from rfl]
           simp
         · rw [show bagEntryNum (JVal.jbool true) = none from rfl]
           simp)]
     rfl⟩

end ArrSearch
